import Mathlib

/-!
Verification of the radchat conversation orchestrator (src/src/chat.py,
src/src/providers.py, src/src/server.py, src/src/chat.py execute_tool).

The Python source is shallowly embedded: JSON data (tool arguments and tool
results) becomes the inductive `JVal`; `json.dumps` becomes `dumps` (compact
form with the default ", " and ": " separators) and `dumpsIndent` (the
`indent=2` form used for tool-result payloads); `json.loads` becomes the
fuel-based recursive-descent parser `loads`, which returns `none` where the
Python function raises `json.JSONDecodeError`.  Machine strings are `List Char`
on the wire and `String` for identifiers and chat text.  The agentic loops of
`RadChat.chat`, `GitHubModelsProvider.chat` and `GitHubModelsProvider.chat_stream`
become recursive functions over a scripted list of provider responses, with
`Except` results standing for uncaught Python exceptions.  The `SessionStore`
of server.py becomes explicit state passing over an ordered association list
mirroring `collections.OrderedDict`.
-/

/-- Quote character, kept as a named constant so wire text stays readable. -/
def qc : Char := Char.ofNat 34

/-- Backslash character. -/
def bsl : Char := Char.ofNat 92

/-- A JSON value as produced by Python tool calls: `null`, booleans, integers
(the orchestrator never manipulates float payloads, so numbers are embedded as
`Int`), strings, arrays and ordered objects (Python `dict` preserves insertion
order, so an object is an ordered association list). -/
inductive JVal where
  | jnull
  | jbool (b : Bool)
  | jnum (n : Int)
  | jstr (s : List Char)
  | jarr (elements : List JVal)
  | jobj (fields : List (List Char × JVal))

/-- Hexadecimal digit character (lowercase, as Python `json.dumps` emits). -/
def hexDigitChar (d : Nat) : Char :=
  match d with
  | 0 => '0' | 1 => '1' | 2 => '2' | 3 => '3' | 4 => '4'
  | 5 => '5' | 6 => '6' | 7 => '7' | 8 => '8' | 9 => '9'
  | 10 => 'a' | 11 => 'b' | 12 => 'c' | 13 => 'd' | 14 => 'e'
  | _ => 'f'

/-- Value of a hexadecimal digit character, `none` for anything else. -/
def hexCharVal (c : Char) : Option Nat :=
  if c = '0' then some 0 else if c = '1' then some 1
  else if c = '2' then some 2 else if c = '3' then some 3
  else if c = '4' then some 4 else if c = '5' then some 5
  else if c = '6' then some 6 else if c = '7' then some 7
  else if c = '8' then some 8 else if c = '9' then some 9
  else if c = 'a' ∨ c = 'A' then some 10 else if c = 'b' ∨ c = 'B' then some 11
  else if c = 'c' ∨ c = 'C' then some 12 else if c = 'd' ∨ c = 'D' then some 13
  else if c = 'e' ∨ c = 'E' then some 14 else if c = 'f' ∨ c = 'F' then some 15
  else none

/-- JSON escaping of one character, per Python `json.encoder.ESCAPE_DCT`: the
quote, the backslash and the named control escapes get two-character escapes,
every other control character below 0x20 gets a `\u00XX` escape, and all other
characters pass through unchanged. -/
def escapeChar (c : Char) : List Char :=
  if c = qc then [bsl, qc]
  else if c = bsl then [bsl, bsl]
  else if c = '\n' then [bsl, 'n']
  else if c = '\t' then [bsl, 't']
  else if c = '\x0d' then [bsl, 'r']
  else if c = '\x08' then [bsl, 'b']
  else if c = '\x0c' then [bsl, 'f']
  else if c.toNat < 32 then
    [bsl, 'u', '0', '0', hexDigitChar (c.toNat / 16), hexDigitChar (c.toNat % 16)]
  else [c]

/-- JSON string literal for `s`: opening quote, escaped body, closing quote. -/
def dumpsStr (s : List Char) : List Char :=
  qc :: (s.flatMap escapeChar ++ [qc])

/-- Decimal digit character for `d < 10`. -/
def decDigitChar (d : Nat) : Char := hexDigitChar (d % 10)

/-- Decimal digits of `n`, most significant first.  The recursion is on a fuel
argument so that the definition is structural (and therefore kernel-reducible);
`fuel ≥ n + 1` always suffices since the argument is divided by ten each step. -/
def natCharsAux : Nat → Nat → List Char
  | 0, _ => []
  | fuel + 1, n =>
      if n < 10 then [decDigitChar n]
      else natCharsAux fuel (n / 10) ++ [decDigitChar (n % 10)]

/-- Decimal digit characters of a natural number. -/
def natChars (n : Nat) : List Char := natCharsAux (n + 1) n

/-- Decimal form of an integer: optional minus sign, then digits, exactly the
text Python `json.dumps` emits for an `int`. -/
def intChars (i : Int) : List Char :=
  if i < 0 then '-' :: natChars i.natAbs else natChars i.toNat

mutual
/-- Compact serialization of a JSON value, mirroring Python `json.dumps` with
its default separators: `", "` between items and `": "` after each key. -/
def dumps : JVal → List Char
  | .jnull => ['n', 'u', 'l', 'l']
  | .jbool true => ['t', 'r', 'u', 'e']
  | .jbool false => ['f', 'a', 'l', 's', 'e']
  | .jnum n => intChars n
  | .jstr s => dumpsStr s
  | .jarr elements => '[' :: (dumpsElements elements ++ [']'])
  | .jobj fields => '\x7b' :: (dumpsFields fields ++ ['\x7d'])

/-- Array items joined by `", "`. -/
def dumpsElements : List JVal → List Char
  | [] => []
  | v :: rest => dumps v ++ dumpsElementsTail rest

/-- Items after the first, each preceded by `", "`. -/
def dumpsElementsTail : List JVal → List Char
  | [] => []
  | v :: rest => ',' :: ' ' :: (dumps v ++ dumpsElementsTail rest)

/-- Object members joined by `", "`, each `key: value` with `": "`. -/
def dumpsFields : List (List Char × JVal) → List Char
  | [] => []
  | (k, v) :: rest => dumpsStr k ++ ':' :: ' ' :: (dumps v ++ dumpsFieldsTail rest)

/-- Members after the first, each preceded by `", "`. -/
def dumpsFieldsTail : List (List Char × JVal) → List Char
  | [] => []
  | (k, v) :: rest => ',' :: ' ' :: (dumpsStr k ++ ':' :: ' ' :: (dumps v ++ dumpsFieldsTail rest))
end

/-- String wrapper around `dumps`, for the wire fields that hold JSON text. -/
def dumpsS (v : JVal) : String := String.mk (dumps v)

/-- Whitespace characters `json.loads` skips between tokens. -/
def isWsChar (c : Char) : Bool := c = ' ' ∨ c = '\n' ∨ c = '\t' ∨ c = '\x0d'

/-- Drop leading whitespace. -/
def dropWs : List Char → List Char
  | [] => []
  | c :: rest => if isWsChar c then dropWs rest else c :: rest

/-- Decimal digit test. -/
def isDecDigit (c : Char) : Bool := 48 ≤ c.toNat ∧ c.toNat ≤ 57

/-- Split off the longest leading run of decimal digits. -/
def spanDigits : List Char → List Char × List Char
  | [] => ([], [])
  | c :: rest =>
      if isDecDigit c then
        let p := spanDigits rest
        (c :: p.1, p.2)
      else ([], c :: rest)

/-- Numeric value of a digit run. -/
def digitsVal (ds : List Char) : Nat :=
  ds.foldl (fun acc c => acc * 10 + (c.toNat - 48)) 0

/-- Two-character escapes accepted after a backslash (the `\u` form is handled
separately by the string parser). -/
def unescapeChar (e : Char) : Option Char :=
  if e = qc then some qc
  else if e = bsl then some bsl
  else if e = '/' then some '/'
  else if e = 'n' then some '\n'
  else if e = 't' then some '\t'
  else if e = 'r' then some '\x0d'
  else if e = 'b' then some '\x08'
  else if e = 'f' then some '\x0c'
  else none

/-- Value of four hexadecimal digit characters. -/
def hexQuad (h1 h2 h3 h4 : Char) : Option Nat := do
  let v1 ← hexCharVal h1
  let v2 ← hexCharVal h2
  let v3 ← hexCharVal h3
  let v4 ← hexCharVal h4
  return ((v1 * 16 + v2) * 16 + v3) * 16 + v4

/-- Parse a JSON string body after the opening quote, returning the decoded
characters and the input after the closing quote.  Structural on the input. -/
def parseStrBody : List Char → Option (List Char × List Char)
  | [] => none
  | c :: rest =>
      if c = qc then some ([], rest)
      else if c = bsl then
        match rest with
        | [] => none
        | e :: rest2 =>
            if e = 'u' then
              match rest2 with
              | h1 :: h2 :: h3 :: h4 :: rest3 =>
                  match hexQuad h1 h2 h3 h4 with
                  | some n => (parseStrBody rest3).map (fun p => (Char.ofNat n :: p.1, p.2))
                  | none => none
              | _ => none
            else
              match unescapeChar e with
              | some u => (parseStrBody rest2).map (fun p => (u :: p.1, p.2))
              | none => none
      else (parseStrBody rest).map (fun p => (c :: p.1, p.2))

/-- Parse an optionally signed integer literal (the only numeric form the
orchestrator round-trips; see the `JVal.jnum` comment). -/
def parseIntLit (cs : List Char) : Option (Int × List Char) :=
  match cs with
  | [] => none
  | c :: rest =>
      if c = '-' then
        let p := spanDigits rest
        if p.1 = [] then none else some (-(digitsVal p.1 : Int), p.2)
      else
        let p := spanDigits (c :: rest)
        if p.1 = [] then none else some ((digitsVal p.1 : Int), p.2)

mutual
/-- Parse one JSON value after skipping whitespace.  The `fuel` argument makes
the recursion structural; any fuel above the input length is enough. -/
def parseVal : Nat → List Char → Option (JVal × List Char)
  | 0, _ => none
  | fuel + 1, cs =>
      match dropWs cs with
      | 'n' :: 'u' :: 'l' :: 'l' :: r => some (.jnull, r)
      | 't' :: 'r' :: 'u' :: 'e' :: r => some (.jbool true, r)
      | 'f' :: 'a' :: 'l' :: 's' :: 'e' :: r => some (.jbool false, r)
      | '"' :: r => (parseStrBody r).map (fun p => (.jstr p.1, p.2))
      | '[' :: r =>
          (match dropWs r with
           | ']' :: r2 => some (.jarr [], r2)
           | r2 => (parseElements fuel r2).map (fun p => (.jarr p.1, p.2)))
      | '\x7b' :: r =>
          (match dropWs r with
           | '\x7d' :: r2 => some (.jobj [], r2)
           | r2 => (parseFields fuel r2).map (fun p => (.jobj p.1, p.2)))
      | c :: r =>
          if c = '-' ∨ isDecDigit c then
            (parseIntLit (c :: r)).map (fun p => (.jnum p.1, p.2))
          else none
      | [] => none

/-- Parse one or more comma-separated array items up to the closing bracket. -/
def parseElements : Nat → List Char → Option (List JVal × List Char)
  | 0, _ => none
  | fuel + 1, cs =>
      match parseVal fuel cs with
      | none => none
      | some (v, r) =>
          match dropWs r with
          | ',' :: r2 => (parseElements fuel r2).map (fun p => (v :: p.1, p.2))
          | ']' :: r2 => some ([v], r2)
          | _ => none

/-- Parse one or more comma-separated object members up to the closing brace. -/
def parseFields : Nat → List Char → Option (List (List Char × JVal) × List Char)
  | 0, _ => none
  | fuel + 1, cs =>
      match dropWs cs with
      | '"' :: r =>
          (match parseStrBody r with
           | none => none
           | some (k, r1) =>
               match dropWs r1 with
               | ':' :: r2 =>
                   (match parseVal fuel r2 with
                    | none => none
                    | some (v, r3) =>
                        match dropWs r3 with
                        | ',' :: r4 => (parseFields fuel r4).map (fun p => ((k, v) :: p.1, p.2))
                        | '\x7d' :: r4 => some ([(k, v)], r4)
                        | _ => none)
               | _ => none)
      | _ => none
end

/-- Embedding of `json.loads`: parse a complete document; `none` stands for a
raised `json.JSONDecodeError` (malformed text, or trailing garbage). -/
def loadsL (cs : List Char) : Option JVal :=
  match parseVal (cs.length + 1) cs with
  | none => none
  | some (v, r) => if dropWs r = [] then some v else none

/-- String-typed entry point of the `json.loads` embedding. -/
def loads (s : String) : Option JVal := loadsL s.data

/-- Indentation: `n` spaces. -/
def indentSpaces (n : Nat) : List Char := List.replicate n ' '

mutual
/-- Serialization mirroring `json.dumps(value, indent=2)`, the form the loops
store in every tool-result message: containers spread over lines, members
indented two further spaces, `", "` tightened to `","` plus a newline. -/
def dumpsIndent (ind : Nat) : JVal → List Char
  | .jarr [] => ['[', ']']
  | .jobj [] => ['\x7b', '\x7d']
  | .jarr elements => '[' :: '\n' :: (dumpsIndentElements (ind + 2) elements
      ++ '\n' :: (indentSpaces ind ++ [']']))
  | .jobj fields => '\x7b' :: '\n' :: (dumpsIndentFields (ind + 2) fields
      ++ '\n' :: (indentSpaces ind ++ ['\x7d']))
  | v => dumps v

/-- Indented array items, one per line, comma-separated. -/
def dumpsIndentElements (ind : Nat) : List JVal → List Char
  | [] => []
  | [v] => indentSpaces ind ++ dumpsIndent ind v
  | v :: rest => indentSpaces ind ++ dumpsIndent ind v ++ ',' :: '\n' :: dumpsIndentElements ind rest

/-- Indented object members, one per line, comma-separated. -/
def dumpsIndentFields (ind : Nat) : List (List Char × JVal) → List Char
  | [] => []
  | [(k, v)] => indentSpaces ind ++ dumpsStr k ++ ':' :: ' ' :: dumpsIndent ind v
  | (k, v) :: rest => indentSpaces ind ++ dumpsStr k ++ ':' :: ' ' :: dumpsIndent ind v
      ++ ',' :: '\n' :: dumpsIndentFields ind rest
end

/-! ### Round-trip facts for the decimal integer codec -/

theorem decDigitChar_spec (d : Nat) (h : d < 10) :
    isDecDigit (decDigitChar d) = true ∧ (decDigitChar d).toNat - 48 = d := by
  interval_cases d <;> exact ⟨by decide, by decide⟩

theorem natCharsAux_ne_nil (fuel n : Nat) (h : n < fuel) : natCharsAux fuel n ≠ [] := by
  match fuel with
  | f + 1 =>
      by_cases h10 : n < 10
      · simp [natCharsAux, h10]
      · simp [natCharsAux, h10]

theorem natCharsAux_all_digits (fuel : Nat) :
    ∀ n, n < fuel → ∀ c ∈ natCharsAux fuel n, isDecDigit c = true := by
  induction fuel with
  | zero => intro n h; omega
  | succ f ih =>
      intro n _ c hc
      by_cases h10 : n < 10
      · simp only [natCharsAux, if_pos h10, List.mem_singleton] at hc
        exact hc ▸ (decDigitChar_spec n h10).1
      · simp only [natCharsAux, if_neg h10, List.mem_append, List.mem_singleton] at hc
        rcases hc with hc | hc
        · exact ih (n / 10) (by omega) c hc
        · exact hc ▸ (decDigitChar_spec (n % 10) (Nat.mod_lt _ (by omega))).1

theorem digitsVal_append_one (ds : List Char) (c : Char) :
    digitsVal (ds ++ [c]) = digitsVal ds * 10 + (c.toNat - 48) := by
  simp [digitsVal, List.foldl_append]

theorem digitsVal_natCharsAux (fuel : Nat) :
    ∀ n, n < fuel → digitsVal (natCharsAux fuel n) = n := by
  induction fuel with
  | zero => intro n h; omega
  | succ f ih =>
      intro n hn
      by_cases h10 : n < 10
      · simp only [natCharsAux, if_pos h10, digitsVal, List.foldl_cons, List.foldl_nil]
        rw [(decDigitChar_spec n h10).2]; omega
      · simp only [natCharsAux, if_neg h10, digitsVal_append_one]
        rw [ih (n / 10) (by omega), (decDigitChar_spec (n % 10) (Nat.mod_lt _ (by omega))).2]
        omega

theorem natChars_ne_nil (n : Nat) : natChars n ≠ [] :=
  natCharsAux_ne_nil (n + 1) n (by omega)

theorem natChars_all_digits (n : Nat) : ∀ c ∈ natChars n, isDecDigit c = true :=
  natCharsAux_all_digits (n + 1) n (by omega)

theorem digitsVal_natChars (n : Nat) : digitsVal (natChars n) = n :=
  digitsVal_natCharsAux (n + 1) n (by omega)

/-- Inputs that cannot extend a digit run: empty, or headed by a non-digit. -/
def noDigitHead : List Char → Prop
  | [] => True
  | c :: _ => isDecDigit c = false

theorem spanDigits_stop (cs : List Char) (h : noDigitHead cs) : spanDigits cs = ([], cs) := by
  match cs with
  | [] => rfl
  | c :: rest => simp [spanDigits, noDigitHead.eq_2] at h ⊢; simp [h]

theorem spanDigits_run (ds : List Char) (hds : ∀ c ∈ ds, isDecDigit c = true)
    (rest : List Char) (hrest : noDigitHead rest) :
    spanDigits (ds ++ rest) = (ds, rest) := by
  induction ds with
  | nil => simpa using spanDigits_stop rest hrest
  | cons c t ih =>
      have hc : isDecDigit c = true := hds c (by simp)
      have ht := ih (fun x hx => hds x (by simp [hx]))
      simp [spanDigits, hc, ht]

theorem digit_head_of_natChars (n : Nat) :
    ∃ c t, natChars n = c :: t ∧ isDecDigit c = true := by
  match h : natChars n with
  | [] => exact absurd h (natChars_ne_nil n)
  | c :: t => exact ⟨c, t, rfl, natChars_all_digits n c (h ▸ List.mem_cons_self ..)⟩

theorem parseIntLit_intChars (i : Int) (rest : List Char) (h : noDigitHead rest) :
    parseIntLit (intChars i ++ rest) = some (i, rest) := by
  by_cases hneg : i < 0
  · have harg : intChars i ++ rest = '-' :: (natChars i.natAbs ++ rest) := by
      simp [intChars, hneg]
    rw [harg]
    simp only [parseIntLit, if_pos rfl, spanDigits_run _ (natChars_all_digits _) _ h]
    rw [if_neg (natChars_ne_nil _)]
    rw [digitsVal_natChars]
    have h2 : ((i.natAbs : Int)) = -i := by omega
    rw [h2]
    simp
  · obtain ⟨c, t, hrep, hc⟩ := digit_head_of_natChars i.toNat
    have hcm : c ≠ '-' := by rintro rfl; exact absurd hc (by decide)
    have harg : intChars i ++ rest = c :: (t ++ rest) := by
      simp [intChars, hneg, hrep]
    have hspan : spanDigits (c :: (t ++ rest)) = (c :: t, rest) := by
      have := spanDigits_run (c :: t) (hrep ▸ natChars_all_digits i.toNat) rest h
      simpa using this
    rw [harg]
    simp only [parseIntLit, if_neg hcm, hspan]
    have hval : digitsVal (c :: t) = i.toNat := by
      have := digitsVal_natChars i.toNat
      rwa [hrep] at this
    simp [hval]
    omega

/-! ### Round-trip facts for the string codec -/

theorem hexCharVal_hexDigitChar (d : Nat) (h : d < 16) :
    hexCharVal (hexDigitChar d) = some d := by
  interval_cases d <;> decide

theorem hexQuad_low (n : Nat) (h : n < 32) :
    hexQuad '0' '0' (hexDigitChar (n / 16)) (hexDigitChar (n % 16)) = some n := by
  have h0 : hexCharVal '0' = some 0 := by decide
  have h1 : hexCharVal (hexDigitChar (n / 16)) = some (n / 16) :=
    hexCharVal_hexDigitChar _ (by omega)
  have h2 : hexCharVal (hexDigitChar (n % 16)) = some (n % 16) :=
    hexCharVal_hexDigitChar _ (Nat.mod_lt _ (by omega))
  simp [hexQuad, h0, h1, h2]
  omega

theorem parseStrBody_escapeChar (c : Char) (t : List Char) :
    parseStrBody (escapeChar c ++ t) = (parseStrBody t).map (fun p => (c :: p.1, p.2)) := by
  have hbq : bsl ≠ qc := by decide
  by_cases h1 : c = qc
  · subst h1
    rw [show escapeChar qc = [bsl, qc] from by simp [escapeChar]]
    rw [parseStrBody.eq_def]
    simp only [List.cons_append, if_neg hbq, if_pos rfl]
    simp [show (qc : Char) ≠ 'u' from by decide, unescapeChar]
  · by_cases h2 : c = bsl
    · subst h2
      rw [show escapeChar bsl = [bsl, bsl] from by simp [escapeChar, hbq]]
      rw [parseStrBody.eq_def]
      simp only [List.cons_append, if_neg hbq, if_pos rfl]
      simp [show (bsl : Char) ≠ 'u' from by decide,
            show unescapeChar bsl = some bsl from by simp [unescapeChar, hbq]]
    · by_cases h3 : c = '\n'
      · subst h3
        rw [show escapeChar '\n' = [bsl, 'n'] from by decide]
        rw [parseStrBody.eq_def]
        simp only [List.cons_append, if_neg hbq, if_pos rfl]
        simp [show ('n' : Char) ≠ 'u' from by decide,
              show unescapeChar 'n' = some '\n' from by decide]
      · by_cases h4 : c = '\t'
        · subst h4
          rw [show escapeChar '\t' = [bsl, 't'] from by decide]
          rw [parseStrBody.eq_def]
          simp only [List.cons_append, if_neg hbq, if_pos rfl]
          simp [show ('t' : Char) ≠ 'u' from by decide,
                show unescapeChar 't' = some '\t' from by decide]
        · by_cases h5 : c = '\x0d'
          · subst h5
            rw [show escapeChar '\x0d' = [bsl, 'r'] from by decide]
            rw [parseStrBody.eq_def]
            simp only [List.cons_append, if_neg hbq, if_pos rfl]
            simp [show ('r' : Char) ≠ 'u' from by decide,
                  show unescapeChar 'r' = some '\x0d' from by decide]
          · by_cases h6 : c = '\x08'
            · subst h6
              rw [show escapeChar '\x08' = [bsl, 'b'] from by decide]
              rw [parseStrBody.eq_def]
              simp only [List.cons_append, if_neg hbq, if_pos rfl]
              simp [show ('b' : Char) ≠ 'u' from by decide,
                    show unescapeChar 'b' = some '\x08' from by decide]
            · by_cases h7 : c = '\x0c'
              · subst h7
                rw [show escapeChar '\x0c' = [bsl, 'f'] from by decide]
                rw [parseStrBody.eq_def]
                simp only [List.cons_append, if_neg hbq, if_pos rfl]
                simp [show ('f' : Char) ≠ 'u' from by decide,
                      show unescapeChar 'f' = some '\x0c' from by decide]
              · by_cases h8 : c.toNat < 32
                · have hq := hexQuad_low c.toNat h8
                  simp only [escapeChar, if_neg h1, if_neg h2, if_neg h3, if_neg h4,
                    if_neg h5, if_neg h6, if_neg h7, if_pos h8, List.cons_append,
                    List.nil_append]
                  rw [parseStrBody.eq_def]
                  simp only [if_neg hbq, if_pos rfl]
                  simp [hq, Char.ofNat_toNat]
                · have hcq : c ≠ qc := h1
                  have hcb : c ≠ bsl := h2
                  rw [show escapeChar c = [c] from by
                    simp [escapeChar, h1, h2, h3, h4, h5, h6, h7, h8]]
                  rw [parseStrBody.eq_def]
                  simp [hcq, hcb]

theorem parseStrBody_dumps (s : List Char) (rest : List Char) :
    parseStrBody (s.flatMap escapeChar ++ qc :: rest) = some (s, rest) := by
  induction s with
  | nil =>
      rw [parseStrBody.eq_def]
      simp
  | cons c cs ih =>
      rw [List.flatMap_cons, List.append_assoc, parseStrBody_escapeChar, ih]
      rfl

/-! ### Head characters of serialized values -/

theorem isDecDigit_facts (c : Char) (h : isDecDigit c = true) :
    isWsChar c = false ∧ c ≠ ']' ∧ c ≠ '\x7d' ∧ c ≠ 'n' ∧ c ≠ 't' ∧ c ≠ 'f' ∧
    c ≠ '"' ∧ c ≠ '[' ∧ c ≠ '\x7b' ∧ c ≠ '-' ∧ c ≠ ',' := by
  have hsp : c ≠ ' ' := by rintro rfl; exact absurd h (by decide)
  have hnl : c ≠ '\n' := by rintro rfl; exact absurd h (by decide)
  have htb : c ≠ '\t' := by rintro rfl; exact absurd h (by decide)
  have hcr : c ≠ '\x0d' := by rintro rfl; exact absurd h (by decide)
  refine ⟨by simp [isWsChar, hsp, hnl, htb, hcr], ?_, ?_, ?_, ?_, ?_, ?_, ?_, ?_, ?_, ?_⟩ <;>
    (rintro rfl; exact absurd h (by decide))

theorem dropWs_cons (c : Char) (t : List Char) (h : isWsChar c = false) :
    dropWs (c :: t) = c :: t := by
  simp [dropWs, h]

theorem dumps_head (v : JVal) :
    ∃ c t, dumps v = c :: t ∧ isWsChar c = false ∧ c ≠ ']' ∧ c ≠ '\x7d' := by
  cases v with
  | jnull => exact ⟨'n', ['u', 'l', 'l'], rfl, by decide, by decide, by decide⟩
  | jbool b =>
      cases b with
      | true => exact ⟨'t', ['r', 'u', 'e'], rfl, by decide, by decide, by decide⟩
      | false => exact ⟨'f', ['a', 'l', 's', 'e'], rfl, by decide, by decide, by decide⟩
  | jnum n =>
      by_cases hneg : n < 0
      · exact ⟨'-', natChars n.natAbs, by simp [dumps, intChars, hneg],
          by decide, by decide, by decide⟩
      · obtain ⟨c, t, hrep, hc⟩ := digit_head_of_natChars n.toNat
        obtain ⟨hws, hbr, hbc, _⟩ := isDecDigit_facts c hc
        exact ⟨c, t, by simp [dumps, intChars, hneg, hrep], hws, hbr, hbc⟩
  | jstr s => exact ⟨qc, s.flatMap escapeChar ++ [qc], rfl, by decide, by decide, by decide⟩
  | jarr elements => exact ⟨'[', dumpsElements elements ++ [']'], rfl,
      by decide, by decide, by decide⟩
  | jobj fields => exact ⟨'\x7b', dumpsFields fields ++ ['\x7d'], rfl,
      by decide, by decide, by decide⟩

theorem dropWs_dumps (v : JVal) (x : List Char) :
    dropWs (dumps v ++ x) = dumps v ++ x := by
  obtain ⟨c, t, hrep, hws, _, _⟩ := dumps_head v
  rw [hrep, List.cons_append, dropWs_cons _ _ hws]

theorem parseVal_ws (fuel : Nat) (cs : List Char) :
    parseVal fuel (' ' :: cs) = parseVal fuel cs := by
  cases fuel with
  | zero => rfl
  | succ f =>
      have hd : dropWs (' ' :: cs) = dropWs cs := by
        simp [dropWs, show isWsChar ' ' = true from by decide]
      simp only [parseVal, hd]

theorem parseElements_ws (fuel : Nat) (cs : List Char) :
    parseElements fuel (' ' :: cs) = parseElements fuel cs := by
  cases fuel with
  | zero => rfl
  | succ f => simp only [parseElements, parseVal_ws]

theorem parseFields_ws (fuel : Nat) (cs : List Char) :
    parseFields fuel (' ' :: cs) = parseFields fuel cs := by
  cases fuel with
  | zero => rfl
  | succ f =>
      have hd : dropWs (' ' :: cs) = dropWs cs := by
        simp [dropWs, show isWsChar ' ' = true from by decide]
      simp only [parseFields, hd]

theorem noDigitHead_of (c : Char) (r : List Char) (h : isDecDigit c = false) :
    noDigitHead (c :: r) := h

/-! ### Value-level round trip -/

theorem parseVal_dispatch_num (f : Nat) (c : Char) (t : List Char)
    (hws : isWsChar c = false) (hn : c ≠ 'n') (ht : c ≠ 't') (hf : c ≠ 'f')
    (hq : c ≠ '"') (hbk : c ≠ '[') (hbc : c ≠ '\x7b')
    (hg : c = '-' ∨ isDecDigit c = true) :
    parseVal (f + 1) (c :: t) = (parseIntLit (c :: t)).map (fun p => (JVal.jnum p.1, p.2)) := by
  simp only [parseVal]
  rw [dropWs_cons c t hws]
  simp [hn, ht, hf, hq, hbk, hbc, hg]

theorem parseVal_intChars (i : Int) (f : Nat) (rest : List Char) (h : noDigitHead rest) :
    parseVal (f + 1) (intChars i ++ rest) = some (.jnum i, rest) := by
  by_cases hneg : i < 0
  · have harg : intChars i ++ rest = '-' :: (natChars i.natAbs ++ rest) := by
      simp [intChars, hneg]
    rw [harg, parseVal_dispatch_num f '-' _ (by decide) (by decide) (by decide) (by decide)
      (by decide) (by decide) (by decide) (Or.inl rfl), ← harg, parseIntLit_intChars i rest h]
    rfl
  · obtain ⟨c, t, hrep, hc⟩ := digit_head_of_natChars i.toNat
    obtain ⟨hws, _, _, hn, ht, hf2, hq, hbk, hbc, _, _⟩ := isDecDigit_facts c hc
    have harg : intChars i ++ rest = c :: (t ++ rest) := by
      simp [intChars, hneg, hrep]
    rw [harg, parseVal_dispatch_num f c _ hws hn ht hf2 hq hbk hbc (Or.inr hc), ← harg,
      parseIntLit_intChars i rest h]
    rfl

theorem parseVal_jstr (s : List Char) (f : Nat) (rest : List Char) :
    parseVal (f + 1) (dumpsStr s ++ rest) = some (.jstr s, rest) := by
  have harg : dumpsStr s ++ rest = '"' :: (s.flatMap escapeChar ++ ('"' :: rest)) := by
    simp [dumpsStr, show (qc : Char) = '"' from by decide]
  rw [harg]
  simp only [parseVal]
  rw [dropWs_cons _ _ (by decide)]
  have hb : parseStrBody (s.flatMap escapeChar ++ ('"' :: rest)) = some (s, rest) := by
    rw [show ('"' : Char) = qc from by decide]
    exact parseStrBody_dumps s rest
  simp [hb]

theorem parseVal_arr_step (f : Nat) (X : List Char) :
    parseVal (f + 1) ('[' :: X) =
      (match dropWs X with
       | ']' :: r2 => some (.jarr [], r2)
       | r2 => (parseElements f r2).map (fun p => (.jarr p.1, p.2))) := rfl

theorem parseVal_obj_step (f : Nat) (X : List Char) :
    parseVal (f + 1) ('\x7b' :: X) =
      (match dropWs X with
       | '\x7d' :: r2 => some (.jobj [], r2)
       | r2 => (parseFields f r2).map (fun p => (.jobj p.1, p.2))) := rfl

mutual
theorem parse_dumps_val : ∀ (v : JVal) (fuel : Nat) (rest : List Char),
    (dumps v).length < fuel → noDigitHead rest →
    parseVal fuel (dumps v ++ rest) = some (v, rest)
  | .jnull, fuel, rest, hf, _ => by
      cases fuel with
      | zero => simp [dumps] at hf
      | succ f =>
          simp only [dumps, List.cons_append, List.nil_append]
          simp only [parseVal]
          rw [dropWs_cons _ _ (by decide)]
          rfl
  | .jbool b, fuel, rest, hf, _ => by
      cases fuel with
      | zero => cases b <;> simp [dumps] at hf
      | succ f =>
          cases b <;>
            (simp only [dumps, List.cons_append, List.nil_append]
             simp only [parseVal]
             rw [dropWs_cons _ _ (by decide)]
             rfl)
  | .jnum n, fuel, rest, hf, hr => by
      cases fuel with
      | zero => exact absurd hf (Nat.not_lt_zero _)
      | succ f =>
          have h := parseVal_intChars n f rest hr
          simpa [dumps] using h
  | .jstr s, fuel, rest, hf, _ => by
      cases fuel with
      | zero => exact absurd hf (Nat.not_lt_zero _)
      | succ f =>
          have h := parseVal_jstr s f rest
          simpa [dumps] using h
  | .jarr [], fuel, rest, hf, _ => by
      cases fuel with
      | zero => simp [dumps] at hf
      | succ f =>
          have harg : dumps (.jarr []) ++ rest = '[' :: (']' :: rest) := by
            simp [dumps, dumpsElements]
          rw [harg, parseVal_arr_step]
          rw [dropWs_cons _ _ (by decide)]
          rfl
  | .jarr (e :: es), fuel, rest, hf, _ => by
      cases fuel with
      | zero => simp [dumps] at hf
      | succ f =>
          have hlen : (dumpsElements (e :: es)).length + 1 < f := by
            simp [dumps] at hf; omega
          have key := parse_dumps_elements e es f rest hlen
          have harg : dumps (.jarr (e :: es)) ++ rest
              = '[' :: (dumpsElements (e :: es) ++ ']' :: rest) := by
            simp [dumps]
          rw [harg, parseVal_arr_step]
          obtain ⟨c, t, hd, hws, hbr, _⟩ := dumps_head e
          have hcons : dumpsElements (e :: es) ++ ']' :: rest
              = c :: (t ++ (dumpsElementsTail es ++ ']' :: rest)) := by
            simp [dumpsElements, hd]
          rw [hcons, dropWs_cons _ _ hws]
          split
          · rename_i heq
            injection heq with h1 _
            exact absurd h1 hbr
          · rw [← hcons, key]
            rfl
  | .jobj [], fuel, rest, hf, _ => by
      cases fuel with
      | zero => simp [dumps] at hf
      | succ f =>
          have harg : dumps (.jobj []) ++ rest = '\x7b' :: ('\x7d' :: rest) := by
            simp [dumps, dumpsFields]
          rw [harg, parseVal_obj_step]
          rw [dropWs_cons _ _ (by decide)]
          rfl
  | .jobj (kv :: kvs), fuel, rest, hf, _ => by
      cases fuel with
      | zero => simp [dumps] at hf
      | succ f =>
          have hlen : (dumpsFields (kv :: kvs)).length + 1 < f := by
            simp [dumps] at hf; omega
          have key := parse_dumps_fields kv kvs f rest hlen
          have harg : dumps (.jobj (kv :: kvs)) ++ rest
              = '\x7b' :: (dumpsFields (kv :: kvs) ++ '\x7d' :: rest) := by
            simp [dumps]
          rw [harg, parseVal_obj_step]
          obtain ⟨k, v⟩ := kv
          have hcons : dumpsFields ((k, v) :: kvs) ++ '\x7d' :: rest
              = qc :: ((k.flatMap escapeChar ++ [qc])
                  ++ ((':' :: ' ' :: (dumps v ++ dumpsFieldsTail kvs)) ++ '\x7d' :: rest)) := by
            simp [dumpsFields, dumpsStr]
          rw [hcons, dropWs_cons _ _ (by decide)]
          split
          · rename_i heq
            injection heq with h1 _
            exact absurd h1 (by decide)
          · rw [← hcons, key]
            rfl
  termination_by v _ _ _ _ => sizeOf v

theorem parse_dumps_elements : ∀ (v : JVal) (vs : List JVal) (fuel : Nat) (rest : List Char),
    (dumpsElements (v :: vs)).length + 1 < fuel →
    parseElements fuel (dumpsElements (v :: vs) ++ ']' :: rest) = some (v :: vs, rest)
  | v, [], fuel, rest, hf => by
      cases fuel with
      | zero => omega
      | succ f =>
          have hlen : (dumps v).length < f := by
            simp [dumpsElements, dumpsElementsTail] at hf; omega
          have hv := parse_dumps_val v f (']' :: rest) hlen (noDigitHead_of _ _ (by decide))
          have harg : dumpsElements [v] ++ ']' :: rest = dumps v ++ ']' :: rest := by
            simp [dumpsElements, dumpsElementsTail]
          rw [harg]
          simp +decide only [parseElements, hv, dropWs_cons]
  | v, x :: xs, fuel, rest, hf => by
      cases fuel with
      | zero => omega
      | succ f =>
          have hflat : (dumpsElements (v :: x :: xs)).length
              = (dumps v).length + 2 + (dumpsElements (x :: xs)).length := by
            simp [dumpsElements, dumpsElementsTail]; omega
          have hlv : (dumps v).length < f := by omega
          have hlx : (dumpsElements (x :: xs)).length + 1 < f := by omega
          have hv := parse_dumps_val v f (',' :: ' ' :: (dumpsElements (x :: xs) ++ ']' :: rest))
            hlv (noDigitHead_of _ _ (by decide))
          have key := parse_dumps_elements x xs f rest hlx
          have harg : dumpsElements (v :: x :: xs) ++ ']' :: rest
              = dumps v ++ (',' :: ' ' :: (dumpsElements (x :: xs) ++ ']' :: rest)) := by
            simp [dumpsElements, dumpsElementsTail]
          rw [harg]
          simp +decide only [parseElements, hv, dropWs_cons, parseElements_ws, key]
          rfl
  termination_by v vs _ _ _ => sizeOf v + sizeOf vs

theorem parse_dumps_fields :
    ∀ (kv : List Char × JVal) (kvs : List (List Char × JVal)) (fuel : Nat) (rest : List Char),
    (dumpsFields (kv :: kvs)).length + 1 < fuel →
    parseFields fuel (dumpsFields (kv :: kvs) ++ '\x7d' :: rest) = some (kv :: kvs, rest)
  | (k, v), [], fuel, rest, hf => by
      cases fuel with
      | zero => omega
      | succ f =>
          have hlen : (dumps v).length < f := by
            simp [dumpsFields, dumpsFieldsTail, dumpsStr] at hf; omega
          have hv := parse_dumps_val v f ('\x7d' :: rest) hlen (noDigitHead_of _ _ (by decide))
          have hb : parseStrBody (k.flatMap escapeChar
              ++ ('"' :: (':' :: (' ' :: (dumps v ++ '\x7d' :: rest)))))
              = some (k, ':' :: (' ' :: (dumps v ++ '\x7d' :: rest))) := by
            rw [show ('"' : Char) = qc from by decide]
            exact parseStrBody_dumps k _
          have harg : dumpsFields [(k, v)] ++ '\x7d' :: rest
              = '"' :: (k.flatMap escapeChar
                  ++ ('"' :: (':' :: (' ' :: (dumps v ++ '\x7d' :: rest))))) := by
            simp [dumpsFields, dumpsFieldsTail, dumpsStr, show (qc : Char) = '"' from by decide]
          rw [harg]
          simp +decide only [parseFields, hb, hv, dropWs_cons, parseVal_ws]
  | (k, v), kv2 :: more, fuel, rest, hf => by
      cases fuel with
      | zero => omega
      | succ f =>
          have hflat : (dumpsFields ((k, v) :: kv2 :: more)).length
              = (dumpsStr k).length + 2 + (dumps v).length + 2
                  + (dumpsFields (kv2 :: more)).length := by
            obtain ⟨k2, v2⟩ := kv2
            simp [dumpsFields, dumpsFieldsTail]; omega
          have hlv : (dumps v).length < f := by
            have : 1 ≤ (dumpsStr k).length := by simp [dumpsStr]
            omega
          have hlx : (dumpsFields (kv2 :: more)).length + 1 < f := by omega
          have hv := parse_dumps_val v f
            (',' :: ' ' :: (dumpsFields (kv2 :: more) ++ '\x7d' :: rest))
            hlv (noDigitHead_of _ _ (by decide))
          have key := parse_dumps_fields kv2 more f rest hlx
          have hb : parseStrBody (k.flatMap escapeChar ++ ('"' :: (':' :: (' ' :: (dumps v
              ++ (',' :: ' ' :: (dumpsFields (kv2 :: more) ++ '\x7d' :: rest)))))))
              = some (k, ':' :: (' ' :: (dumps v
                  ++ (',' :: ' ' :: (dumpsFields (kv2 :: more) ++ '\x7d' :: rest))))) := by
            rw [show ('"' : Char) = qc from by decide]
            exact parseStrBody_dumps k _
          have harg : dumpsFields ((k, v) :: kv2 :: more) ++ '\x7d' :: rest
              = '"' :: (k.flatMap escapeChar ++ ('"' :: (':' :: (' ' :: (dumps v
                  ++ (',' :: ' ' :: (dumpsFields (kv2 :: more) ++ '\x7d' :: rest))))))) := by
            obtain ⟨k2, v2⟩ := kv2
            simp [dumpsFields, dumpsFieldsTail, dumpsStr, show (qc : Char) = '"' from by decide]
          rw [harg]
          simp +decide only [parseFields, hb, hv, dropWs_cons, parseVal_ws, parseFields_ws, key]
          rfl
  termination_by kv kvs _ _ _ => sizeOf kv + sizeOf kvs
end

theorem loadsL_dumps (v : JVal) : loadsL (dumps v) = some v := by
  have h := parse_dumps_val v ((dumps v).length + 1) [] (by omega) trivial
  rw [List.append_nil] at h
  simp [loadsL, h, dropWs]

theorem loads_dumpsS (v : JVal) : loads (dumpsS v) = some v := by
  simpa [loads, dumpsS] using loadsL_dumps v

/-! ### Canonical message model (the Anthropic-style transcript both providers keep) -/

/-- Content block of an assistant turn, as stored in `msgs`: a text block or a
`tool_use` block (`id`, `name`, `input` dict), per chat.py / providers.py. -/
inductive ContentBlock where
  | text (body : String)
  | toolUse (id : String) (name : String) (input : JVal)

/-- One entry of a `tool_results` list: the dict
`("type": "tool_result", "tool_use_id": ..., "content": json.dumps(result, indent=2))`. -/
structure ToolResultItem where
  tool_use_id : String
  content : List Char
deriving DecidableEq

/-- One transcript message.  `user` is a plain user text, `toolResults` is the
`("role": "user", "content": [tool_result, ...])` form, `assistant` carries
content blocks, and `assistantStr` is an assistant message whose content is a
plain string (the `else` arm of `_convert_messages`). -/
inductive Message where
  | user (body : String)
  | toolResults (items : List ToolResultItem)
  | assistant (content : List ContentBlock)
  | assistantStr (body : String)

/-- Outcome of one Python call to the tool executor: a returned dict, or a
raised exception carrying its message. -/
inductive ToolOutcome where
  | ok (result : JVal)
  | exn (message : String)

/-- The `tool_executor` contract: `execute(name, arguments) -> result`. -/
def ToolExecutor : Type := String → JVal → ToolOutcome

/-- Uncaught Python exceptions that can escape the loops: a
`json.JSONDecodeError` from `json.loads`, an exception raised by the tool
executor, or the underlying HTTP call itself failing (modelled as running out
of scripted responses). -/
inductive LoopErr where
  | jsonDecodeError
  | toolException (message : String)
  | providerError

/-! ### RadChat.chat (chat.py, the Block-protocol blocking loop) -/

/-- Response of one `client.messages.create` call: `stop_reason` and the
content blocks, as consumed by `RadChat.chat`. -/
structure AnthropicResponse where
  stop_reason : String
  content : List ContentBlock

/-- The tool pass of one loop turn (chat.py lines 90-98): for each `tool_use`
block, in order, invoke the executor and collect
`(tool_use_id := block.id, content := json.dumps(result, indent=2))`.
An exception from the executor escapes: there is no `try` in the source. -/
def collectToolResults (executor : ToolExecutor) : List ContentBlock → Except LoopErr (List ToolResultItem)
  | [] => .ok []
  | .text _ :: rest => collectToolResults executor rest
  | .toolUse id name input :: rest =>
      match executor name input with
      | .exn m => .error (.toolException m)
      | .ok r =>
          match collectToolResults executor rest with
          | .error e => .error e
          | .ok items => .ok (⟨id, dumpsIndent 0 r⟩ :: items)

/-- The final-text extraction of chat.py line 107: the `text` attribute of
every text block, joined by newlines. -/
def joinTextBlocks (blocks : List ContentBlock) : String :=
  String.intercalate "\n" (blocks.filterMap (fun b =>
    match b with
    | .text body => some body
    | _ => none))

/-- The `for _ in range(max_turns)` loop of `RadChat.chat` (chat.py lines
75-110), with the provider scripted as a response list consumed one entry per
round trip.  Returns the final text, the transcript, and the number of round
trips performed; `.error` stands for an uncaught exception. -/
def radChatLoop (executor : ToolExecutor) (responses : List AnthropicResponse)
    (msgs : List Message) : Nat → Except LoopErr (String × List Message × Nat)
  | 0 => .ok ("Maximum conversation turns reached.", msgs, 0)
  | fuel + 1 =>
      match responses with
      | [] => .error .providerError
      | response :: rest =>
          if response.stop_reason = "tool_use" then
            match collectToolResults executor response.content with
            | .error e => .error e
            | .ok results =>
                match radChatLoop executor rest
                    (msgs ++ [.assistant response.content, .toolResults results]) fuel with
                | .error e => .error e
                | .ok (answer, finalMsgs, n) => .ok (answer, finalMsgs, n + 1)
          else
            .ok (joinTextBlocks response.content, msgs ++ [.assistant response.content], 1)

/-- `RadChat.chat(user_message, max_turns)`: append the user message, then run
the agentic loop. -/
def RadChat.chat (executor : ToolExecutor) (responses : List AnthropicResponse)
    (msgs : List Message) (userMessage : String) (maxTurns : Nat) :
    Except LoopErr (String × List Message × Nat) :=
  radChatLoop executor responses (msgs ++ [.user userMessage]) maxTurns

/-! ### GitHubModelsProvider wire format and message conversion (providers.py) -/

/-- One entry of an OpenAI `tool_calls` list: `id`, `function.name`,
`function.arguments` (a JSON text). -/
structure WireToolCall where
  id : String
  fname : String
  farguments : String
deriving DecidableEq

/-- One outgoing OpenAI-format message, as built by `_convert_messages`.
`assistant` carries `content` (a string or `None` — Python stores
`text_content or None`) and `tool_calls` (the key is only set when the list is
non-empty, so the empty list stands for an absent key). -/
inductive OpenAIMessage where
  | system (body : String)
  | user (body : String)
  | tool (tool_call_id : String) (body : List Char)
  | assistant (content : Option String) (tool_calls : List WireToolCall)

/-- Text concatenation over an assistant turn (providers.py lines 224-228):
`text_content += block.text` for every block with a `text` attribute. -/
def textContentOf (blocks : List ContentBlock) : String :=
  blocks.foldl (fun acc b =>
    match b with
    | .text body => acc ++ body
    | _ => acc) ""

/-- Wire tool-call descriptors of an assistant turn (providers.py lines
229-237): each `tool_use` block becomes
`(id, "function", (name, arguments := json.dumps(block.input)))`. -/
def wireToolCallsOf (blocks : List ContentBlock) : List WireToolCall :=
  blocks.filterMap (fun b =>
    match b with
    | .toolUse id name input => some ⟨id, name, dumpsS input⟩
    | _ => none)

/-- `GitHubModelsProvider._convert_messages` (providers.py lines 200-245): a
leading system message, each user string kept, each `tool_result` item turned
into a role-`tool` message carrying the originating call id, and each
assistant block list flattened into one message with `content :=
text_content or None` plus the wire tool calls. -/
def convert_messages (messages : List Message) (system : String) : List OpenAIMessage :=
  OpenAIMessage.system system ::
    messages.flatMap (fun msg =>
      match msg with
      | .user body => [.user body]
      | .toolResults items => items.map (fun it => .tool it.tool_use_id it.content)
      | .assistant blocks =>
          [.assistant
            (if textContentOf blocks = "" then none else some (textContentOf blocks))
            (wireToolCallsOf blocks)]
      | .assistantStr body => [.assistant (some body) []])

/-! ### GitHubModelsProvider.chat (the Delta-protocol blocking loop) -/

/-- The parts of `response.choices[0]` that the blocking loop reads:
`finish_reason`, `message.content` (`none` for JSON `null`) and
`message.tool_calls` (`[]` standing for an absent/`None` list). -/
structure OpenAIResponse where
  finish_reason : String
  content : Option String
  tool_calls : List WireToolCall

/-- `json.loads` with the raised `JSONDecodeError` made explicit. -/
def loadsE (s : String) : Except LoopErr JVal :=
  match loads s with
  | some v => .ok v
  | none => .error .jsonDecodeError

/-- Reconstruction of Anthropic-style blocks from a blocking response
(providers.py lines 272-282): a text block when `assistant_msg.content` is
truthy, then one `tool_use` block per wire call with
`input := json.loads(tc.function.arguments)`. -/
def decodeBlocks (m : OpenAIResponse) : Except LoopErr (List ContentBlock) := do
  let toolBlocks ← m.tool_calls.mapM (fun tc => do
      let input ← loadsE tc.farguments
      return ContentBlock.toolUse tc.id tc.fname input)
  return (match m.content with
    | some s => if s = "" then [] else [ContentBlock.text s]
    | none => []) ++ toolBlocks

/-- The tool pass of the blocking loop (providers.py lines 286-294):
re-parse each call's arguments, invoke the executor, and collect the
`tool_result` items in call order.  Exceptions escape: no `try` in source. -/
def ghCollectResults (executor : ToolExecutor) :
    List WireToolCall → Except LoopErr (List ToolResultItem)
  | [] => .ok []
  | tc :: rest => do
      let args ← loadsE tc.farguments
      match executor tc.fname args with
      | .exn m => .error (.toolException m)
      | .ok r =>
          match ghCollectResults executor rest with
          | .error e => .error e
          | .ok items => .ok (⟨tc.id, dumpsIndent 0 r⟩ :: items)

/-- The `for _ in range(max_turns)` loop of `GitHubModelsProvider.chat`
(providers.py lines 258-300).  Each round converts the transcript to the wire
format (the request payload; the scripted response list stands for the
endpoint) and either handles tool calls or returns `assistant_msg.content or
""`.  Note the final turn is returned without being appended to `msgs`, as in
the source. -/
def ghChatLoop (executor : ToolExecutor) (responses : List OpenAIResponse)
    (system : String) (msgs : List Message) : Nat → Except LoopErr (String × List Message × Nat)
  | 0 => .ok ("Maximum conversation turns reached.", msgs, 0)
  | fuel + 1 =>
      match responses with
      | [] => .error .providerError
      | r :: rest =>
          let _wire := convert_messages msgs system
          if r.finish_reason = "tool_calls" ∨ r.tool_calls ≠ [] then
            match decodeBlocks r with
            | .error e => .error e
            | .ok blocks =>
                match ghCollectResults executor r.tool_calls with
                | .error e => .error e
                | .ok results =>
                    match ghChatLoop executor rest system
                        (msgs ++ [.assistant blocks, .toolResults results]) fuel with
                    | .error e => .error e
                    | .ok (answer, finalMsgs, n) => .ok (answer, finalMsgs, n + 1)
          else
            .ok (r.content.getD "", msgs, 1)

/-- Entry point `GitHubModelsProvider.chat(messages, system, tools,
tool_executor, max_turns)`. -/
def GitHubModelsProvider.chat (executor : ToolExecutor) (responses : List OpenAIResponse)
    (system : String) (messages : List Message) (maxTurns : Nat) :
    Except LoopErr (String × List Message × Nat) :=
  ghChatLoop executor responses system messages maxTurns

/-! ### GitHubModelsProvider.chat_stream (the Delta-accumulation streaming loop) -/

/-- One tool-call delta inside a streamed chunk: the positional slot `index`,
and the possibly-absent `id`, `function.name` and `function.arguments`
fragments (the empty string stands for both `None` and `""`, which Python
treats identically under `if`). -/
structure DeltaToolCall where
  index : Nat
  id : String
  hasFunction : Bool
  fname : String
  farguments : String
deriving DecidableEq

/-- `chunk.choices[0].delta`: a content fragment (possibly empty) and the
tool-call deltas (`[]` standing for `None`). -/
structure StreamDelta where
  content : String
  tool_calls : List DeltaToolCall
deriving DecidableEq

/-- One streamed chunk; `none` models a chunk with no `choices`, which the
loop skips (providers.py lines 328-329). -/
def StreamChunk : Type := Option StreamDelta

/-- Accumulated state of one tool-call slot:
`("id": ..., "name": ..., "arguments": ...)`. -/
structure Slot where
  id : String
  name : String
  arguments : String
deriving DecidableEq

/-- Association-list lookup on slot indices (dict membership test). -/
def lookupSlot : List (Nat × Slot) → Nat → Option Slot
  | [], _ => none
  | (i, s) :: rest, idx => if i = idx then some s else lookupSlot rest idx

/-- In-place update of one slot (dict item assignment keeps dict order). -/
def updateSlot : List (Nat × Slot) → Nat → (Slot → Slot) → List (Nat × Slot)
  | [], _, _ => []
  | (i, s) :: rest, idx, f =>
      if i = idx then (i, f s) :: rest else (i, s) :: updateSlot rest idx f

/-- One tool-call delta applied to `tool_calls_data` (providers.py lines
338-348): initialize the slot on first sight, overwrite `id`/`name` when a
fragment is truthy, and concatenate `arguments` fragments. -/
def applyToolCallDelta (data : List (Nat × Slot)) (tc : DeltaToolCall) : List (Nat × Slot) :=
  let data2 := if (lookupSlot data tc.index).isSome then data
    else data ++ [(tc.index, ⟨"", "", ""⟩)]
  updateSlot data2 tc.index (fun s =>
    let s1 := if tc.id ≠ "" then Slot.mk tc.id s.name s.arguments else s
    if tc.hasFunction then
      let s2 := if tc.fname ≠ "" then Slot.mk s1.id tc.fname s1.arguments else s1
      if tc.farguments ≠ "" then Slot.mk s2.id s2.name (s2.arguments ++ tc.farguments) else s2
    else s1)

/-- Running state of the chunk loop: the accumulated text, the slot table, and
the text fragments yielded so far. -/
structure StreamAccum where
  full_content : String
  tool_calls_data : List (Nat × Slot)
  yielded : List String

/-- One chunk of the stream applied to the running state (providers.py lines
327-348): skip chunks without choices, accumulate and yield `delta.content`
when truthy, then fold the tool-call deltas. -/
def processChunk (acc : StreamAccum) (chunk : StreamChunk) : StreamAccum :=
  match chunk with
  | none => acc
  | some delta =>
      let acc1 := if delta.content ≠ "" then
          StreamAccum.mk (acc.full_content ++ delta.content) acc.tool_calls_data
            (acc.yielded ++ [delta.content])
        else acc
      if delta.tool_calls ≠ [] then
        StreamAccum.mk acc1.full_content
          (delta.tool_calls.foldl applyToolCallDelta acc1.tool_calls_data) acc1.yielded
      else acc1

/-- Insertion into a list sorted by slot index. -/
def insertSorted (p : Nat × Slot) : List (Nat × Slot) → List (Nat × Slot)
  | [] => [p]
  | q :: rest => if p.1 ≤ q.1 then p :: q :: rest else q :: insertSorted p rest

/-- `sorted(tool_calls_data.keys())` together with the slot lookups: the slot
table in ascending index order. -/
def sortSlots (data : List (Nat × Slot)) : List (Nat × Slot) :=
  data.foldr insertSorted []

/-- `json.loads(tc["arguments"]) if tc["arguments"] else {}` (providers.py
lines 362 and 375): the empty accumulated string becomes the empty dict, and
any non-empty accumulated string goes through `json.loads` — which raises on
malformed input. -/
def slotArgs (s : Slot) : Except LoopErr JVal :=
  if s.arguments = "" then .ok (.jobj [])
  else loadsE s.arguments

/-- Content blocks of a streamed tool round (providers.py lines 352-363). -/
def streamBlocks (full_content : String) (sortedSlots : List (Nat × Slot)) :
    Except LoopErr (List ContentBlock) := do
  let toolBlocks ← sortedSlots.mapM (fun p => do
      let input ← slotArgs p.2
      return ContentBlock.toolUse p.2.id p.2.name input)
  return (if full_content ≠ "" then [ContentBlock.text full_content] else []) ++ toolBlocks

/-- Boolean containment of a pattern at the head of a list. -/
def leadsWith : List Char → List Char → Bool
  | [], _ => true
  | _ :: _, [] => false
  | a :: as, b :: bs => a = b && leadsWith as bs

/-- Boolean substring containment (Python `in` on strings). -/
def occursIn (pat : List Char) : List Char → Bool
  | [] => leadsWith pat []
  | c :: rest => leadsWith pat (c :: rest) || occursIn pat rest

/-- The hard-coded ACR tool-name list of providers.py line 379. -/
def acrToolNames : List String :=
  ["get_imaging_recommendations", "search_acr_criteria", "list_acr_topics",
   "get_acr_topic_details"]

/-- Lowercasing, for the `"acr" in tool_name.lower()` test. -/
def lowerStr (s : String) : String := String.mk (s.data.map Char.toLower)

/-- The UI routing category of providers.py lines 379-383: `"acr"` when the
tool name is in the ACR list or contains `"acr"` once lowercased, else
`"contacts"`. -/
def toolTypeOf (name : String) : String :=
  if name ∈ acrToolNames ∨ occursIn "acr".data (lowerStr name).data then "acr" else "contacts"

/-- The tool pass of a streamed round (providers.py lines 367-392), over the
slots in ascending index order: yield the start marker, parse the arguments
(again), invoke the executor, yield the structured result event, and collect
the `tool_result` item. -/
def streamToolPass (executor : ToolExecutor) :
    List (Nat × Slot) → Except LoopErr (List String × List ToolResultItem)
  | [] => .ok ([], [])
  | p :: rest => do
      let s := p.2
      let args ← slotArgs s
      match executor s.name args with
      | .exn m => .error (.toolException m)
      | .ok r =>
          let resultEvent := "__TOOL_RESULT__" ++ String.mk (dumps (.jobj
              [("type".data, .jstr (toolTypeOf s.name).data),
               ("tool".data, .jstr s.name.data),
               ("data".data, r)])) ++ "__"
          match streamToolPass executor rest with
          | .error e => .error e
          | .ok (ys, items) =>
              .ok (("__TOOL_START__" ++ s.name ++ "__") :: resultEvent :: ys,
                ⟨s.id, dumpsIndent 0 r⟩ :: items)

/-- The `for _ in range(max_turns)` loop of `GitHubModelsProvider.chat_stream`
(providers.py lines 313-398), its generator modelled as the list of yielded
strings.  A round whose accumulated `tool_calls_data` is empty ends the
generator without appending anything; an exhausted loop yields the final
`"\nMaximum conversation turns reached."` fragment. -/
def ghChatStreamLoop (executor : ToolExecutor) (script : List (List StreamChunk))
    (system : String) (msgs : List Message) :
    Nat → Except LoopErr (List String × List Message × Nat)
  | 0 => .ok (["\nMaximum conversation turns reached."], msgs, 0)
  | fuel + 1 =>
      match script with
      | [] => .error .providerError
      | chunks :: rest =>
          let _wire := convert_messages msgs system
          let acc := chunks.foldl processChunk (StreamAccum.mk "" [] [])
          if acc.tool_calls_data ≠ [] then
            let sortedSlots := sortSlots acc.tool_calls_data
            match streamBlocks acc.full_content sortedSlots with
            | .error e => .error e
            | .ok blocks =>
                match streamToolPass executor sortedSlots with
                | .error e => .error e
                | .ok (toolYields, results) =>
                    match ghChatStreamLoop executor rest system
                        (msgs ++ [.assistant blocks, .toolResults results]) fuel with
                    | .error e => .error e
                    | .ok (ys, finalMsgs, n) =>
                        .ok (acc.yielded ++ toolYields ++ ys, finalMsgs, n + 1)
          else
            .ok (acc.yielded, msgs, 1)

/-- Entry point `GitHubModelsProvider.chat_stream(messages, system, tools,
tool_executor, max_turns)`. -/
def GitHubModelsProvider.chat_stream (executor : ToolExecutor)
    (script : List (List StreamChunk)) (system : String) (messages : List Message)
    (maxTurns : Nat) : Except LoopErr (List String × List Message × Nat) :=
  ghChatStreamLoop executor script system messages maxTurns

/-! ### SessionStore (server.py lines 66-120) -/

/-- Association-list lookup by key (first match — keys are unique in any store
the operations build). -/
def lookupKey : List (String × (Nat × Nat)) → String → Option (Nat × Nat)
  | [], _ => none
  | (k, e) :: rest, key => if k = key then some e else lookupKey rest key

/-- Remove the first binding of `key`, as `del self._sessions[key]`. -/
def eraseKey : List (String × (Nat × Nat)) → String → List (String × (Nat × Nat))
  | [], _ => []
  | (k, e) :: rest, key => if k = key then rest else (k, e) :: eraseKey rest key

/-- `OrderedDict` item assignment: an existing key keeps its position, a new
key is appended at the (most recent) end. -/
def assignKey : List (String × (Nat × Nat)) → String → Nat × Nat → List (String × (Nat × Nat))
  | [], key, e => [(key, e)]
  | (k, e0) :: rest, key, e =>
      if k = key then (k, e) :: rest else (k, e0) :: assignKey rest key e

/-- `while len(self._sessions) >= self._max_size: self._sessions.popitem(last=False)`
— drop from the least-recent end while at or above capacity.  (For
`max_size = 0` Python would raise on popping the emptied dict; the model
returns the empty list; every store in this development has positive
capacity.) -/
def evictOldest (maxSize : Nat) : List (String × (Nat × Nat)) → List (String × (Nat × Nat))
  | [] => []
  | x :: xs => if maxSize ≤ (x :: xs).length then evictOldest maxSize xs else x :: xs

/-- `SessionStore`: the ordered key → `(RadChat, created_at)` mapping (front =
least recently used), the capacity bound, and the TTL in seconds.  `RadChat`
instances are opaque to the store and modelled as `Nat` tokens; the
`threading.Lock` serializing the Python methods needs no counterpart in this
sequential model. -/
structure SessionStore where
  sessions : List (String × (Nat × Nat))
  max_size : Nat
  ttl : Nat

/-- `SessionStore.get` (server.py lines 75-85): on a hit within the TTL, move
the key to the most-recent end and return its chat; on an expired hit, delete
the entry and return `None`; on a miss, return `None`.  The clock is the
explicit `now` argument (`time.time()`, assumed monotone so `Nat` subtraction
matches the real-valued one). -/
def SessionStore.get (st : SessionStore) (now : Nat) (key : String) :
    Option Nat × SessionStore :=
  match lookupKey st.sessions key with
  | some (chat, created) =>
      if now - created < st.ttl then
        (some chat, ⟨eraseKey st.sessions key ++ [(key, (chat, created))], st.max_size, st.ttl⟩)
      else
        (none, ⟨eraseKey st.sessions key, st.max_size, st.ttl⟩)
  | none => (none, st)

/-- `SessionStore.set` (server.py lines 87-92): evict from the oldest end
while at capacity, then bind `key` to `(chat, time.time())`. -/
def SessionStore.set (st : SessionStore) (now : Nat) (key : String) (chat : Nat) :
    SessionStore :=
  ⟨assignKey (evictOldest st.max_size st.sessions) key (chat, now), st.max_size, st.ttl⟩

/-- `SessionStore.delete_prefix` (server.py lines 94-100): collect the keys
that start with the given string (`k.startswith(prefix)` is `leadsWith` on the
character lists), delete each, and return how many. -/
def SessionStore.delete_prefix (st : SessionStore) (pfx : String) : Nat × SessionStore :=
  let keysToDelete := (st.sessions.map Prod.fst).filter (fun k => leadsWith pfx.data k.data)
  (keysToDelete.length,
   ⟨keysToDelete.foldl (fun s k => eraseKey s k) st.sessions, st.max_size, st.ttl⟩)

/-- `get_session` (server.py lines 106-120): look up the composite
`"(session_id):(model or 'default')"` key; on a miss (or expiry) build a fresh
chat via `create_chat` — modelled by the `fresh` token, since the constructed
`RadChat` is opaque to the store — and insert it under the same key. -/
def get_session (st : SessionStore) (now : Nat) (session_id : String)
    (model : Option String) (fresh : Nat) : Nat × SessionStore :=
  let key := session_id ++ ":" ++ model.getD "default"
  match st.get now key with
  | (some chat, st2) => (chat, st2)
  | (none, st2) => (fresh, st2.set now key fresh)

/-! ### execute_tool (chat.py lines 43-51) -/

/-- The tool router of chat.py: three phone-catalog names go to
`execute_phone_tool`, three ACR names go to `execute_acr_tool`, anything else
returns `("error": "Unknown tool: <name>")` directly.  The two domain handlers
are out of the orchestrator core (spec §1) and are passed in as the abstract
executors `phoneExec` and `acrExec`; the router itself cannot raise, so its
unknown-name branch is a plain `.ok`. -/
def execute_tool (phoneExec acrExec : ToolExecutor) (name : String) (args : JVal) :
    ToolOutcome :=
  if name = "search_phone_directory" ∨ name = "get_reading_room_contact"
      ∨ name = "get_procedure_contact" then
    phoneExec name args
  else if name = "search_acr_criteria" ∨ name = "get_acr_topic_details"
      ∨ name = "list_acr_topics" then
    acrExec name args
  else
    .ok (.jobj [("error".data, .jstr ("Unknown tool: " ++ name).data)])

/-! ### Claim theorems -/

/-- C10: for every tool name not among the six known tool names and any
argument mapping, `execute_tool(name, args)` returns the mapping
`("error": "Unknown tool: <name>")` and does not raise (the router reaches its
final branch and returns the dict directly, whatever the two domain handlers
do). -/
theorem C10_unknown_tool (phoneExec acrExec : ToolExecutor) (name : String) (args : JVal)
    (h : name ∉ ["search_phone_directory", "get_reading_room_contact",
      "get_procedure_contact", "search_acr_criteria", "get_acr_topic_details",
      "list_acr_topics"]) :
    execute_tool phoneExec acrExec name args
      = .ok (.jobj [("error".data, .jstr ("Unknown tool: " ++ name).data)]) := by
  simp only [List.mem_cons, List.not_mem_nil, or_false, not_or] at h
  obtain ⟨h1, h2, h3, h4, h5, h6⟩ := h
  simp [execute_tool, h1, h2, h3, h4, h5, h6]

/-- C10 witness: the unknown name `"frobnicate"` hits the error branch. -/
theorem C10_unknown_tool_witness :
    "frobnicate" ∉ (["search_phone_directory", "get_reading_room_contact",
      "get_procedure_contact", "search_acr_criteria", "get_acr_topic_details",
      "list_acr_topics"] : List String)
    ∧ execute_tool (fun _ _ => .ok .jnull) (fun _ _ => .ok .jnull) "frobnicate" (.jobj [])
      = .ok (.jobj [("error".data, .jstr ("Unknown tool: " ++ "frobnicate").data)]) :=
  ⟨by decide, C10_unknown_tool _ _ "frobnicate" (.jobj []) (by decide)⟩

/-! ### C9 support: erasing a batch of keys is filtering -/

theorem eraseKey_cons_ne (k k2 : String) (e : Nat × Nat)
    (s : List (String × (Nat × Nat))) (h : k ≠ k2) :
    eraseKey ((k, e) :: s) k2 = (k, e) :: eraseKey s k2 := by
  simp [eraseKey, h]

theorem foldl_eraseKey_cons (kts : List String) (k : String) (e : Nat × Nat)
    (s : List (String × (Nat × Nat))) (h : ∀ k2 ∈ kts, k2 ≠ k) :
    kts.foldl (fun acc k2 => eraseKey acc k2) ((k, e) :: s)
      = (k, e) :: kts.foldl (fun acc k2 => eraseKey acc k2) s := by
  induction kts generalizing s with
  | nil => rfl
  | cons k2 kts ih =>
      have hk2 : k ≠ k2 := fun heq => (h k2 (by simp)) heq.symm
      simp only [List.foldl_cons, eraseKey_cons_ne k k2 e s hk2]
      exact ih (eraseKey s k2) (fun x hx => h x (by simp [hx]))

theorem foldl_eraseKey_filter (s : List (String × (Nat × Nat))) (p : String → Bool)
    (hnd : (s.map Prod.fst).Nodup) :
    ((s.map Prod.fst).filter p).foldl (fun acc k => eraseKey acc k) s
      = s.filter (fun kv => !(p kv.1)) := by
  induction s with
  | nil => rfl
  | cons kv rest ih =>
      obtain ⟨k, e⟩ := kv
      simp only [List.map_cons, List.nodup_cons, List.mem_map] at hnd
      obtain ⟨hk, hndr⟩ := hnd
      have hknot : ∀ k2 ∈ (rest.map Prod.fst).filter p, k2 ≠ k := by
        intro k2 hk2 heq
        rw [List.mem_filter, List.mem_map] at hk2
        exact hk (heq ▸ hk2.1)
      by_cases hp : p k
      · simp only [List.filter_cons, List.map_cons, hp, if_pos trivial]
        have hstep : eraseKey ((k, e) :: rest) k = rest := by simp [eraseKey]
        simp only [List.foldl_cons, hstep, ih hndr]
        simp [hp]
      · simp only [List.filter_cons, List.map_cons]
        rw [if_neg (by simp [hp])]
        rw [foldl_eraseKey_cons _ k e rest hknot, ih hndr]
        simp [hp]

/-- C9: for every store with distinct keys and every string, `delete_prefix`
removes exactly the entries whose key starts with that string, returns their
count, and leaves every other entry unchanged (same binding, same creation
timestamp, same relative order). -/
theorem C9_delete_prefix (st : SessionStore) (pfx : String)
    (hnd : (st.sessions.map Prod.fst).Nodup) :
    (st.delete_prefix pfx).1
        = ((st.sessions.map Prod.fst).filter (fun k => leadsWith pfx.data k.data)).length
    ∧ (st.delete_prefix pfx).2.sessions
        = st.sessions.filter (fun kv => !(leadsWith pfx.data kv.1.data))
    ∧ (∀ kv ∈ st.sessions, leadsWith pfx.data kv.1.data = false →
        kv ∈ (st.delete_prefix pfx).2.sessions)
    ∧ (∀ kv ∈ (st.delete_prefix pfx).2.sessions,
        kv ∈ st.sessions ∧ leadsWith pfx.data kv.1.data = false) := by
  have hmain := foldl_eraseKey_filter st.sessions (fun k => leadsWith pfx.data k.data) hnd
  refine ⟨rfl, hmain, ?_, ?_⟩
  · intro kv hkv hns
    rw [show (st.delete_prefix pfx).2.sessions
        = st.sessions.filter (fun kv => !(leadsWith pfx.data kv.1.data)) from hmain]
    rw [List.mem_filter]
    exact ⟨hkv, by simp [hns]⟩
  · intro kv hkv
    rw [show (st.delete_prefix pfx).2.sessions
        = st.sessions.filter (fun kv => !(leadsWith pfx.data kv.1.data)) from hmain] at hkv
    rw [List.mem_filter] at hkv
    exact ⟨hkv.1, by simpa using hkv.2⟩

/-- C9 witness: a concrete three-entry store, clearing the `"a:"` sessions. -/
theorem C9_delete_prefix_witness :
    ((([("a:x", (1, 0)), ("a:y", (2, 0)), ("b:z", (3, 0))] : List (String × (Nat × Nat)))
        |>.map Prod.fst).Nodup)
    ∧ (SessionStore.delete_prefix ⟨[("a:x", (1, 0)), ("a:y", (2, 0)), ("b:z", (3, 0))], 10, 5⟩
        "a:").1 = 2
    ∧ (SessionStore.delete_prefix ⟨[("a:x", (1, 0)), ("a:y", (2, 0)), ("b:z", (3, 0))], 10, 5⟩
        "a:").2.sessions = [("b:z", (3, 0))] := by
  have h := C9_delete_prefix ⟨[("a:x", (1, 0)), ("a:y", (2, 0)), ("b:z", (3, 0))], 10, 5⟩
    "a:" (by decide)
  exact ⟨by decide, by rw [h.1]; rfl, by rw [h.2.1]; rfl⟩

/-! ### C8 support: assistant turns without text -/

theorem textContentOf_eq_empty (blocks : List ContentBlock)
    (h : ∀ b ∈ blocks, ∃ id n a, b = ContentBlock.toolUse id n a) :
    textContentOf blocks = "" := by
  induction blocks with
  | nil => rfl
  | cons b rest ih =>
      obtain ⟨id, n, a, rfl⟩ := h b (by simp)
      simp only [textContentOf, List.foldl_cons]
      exact ih (fun b2 hb2 => h b2 (by simp [hb2]))

theorem mapM_only_toolUse {α : Type} (f : α → Except LoopErr ContentBlock)
    (hf : ∀ a b, f a = .ok b → ∃ id n inp, b = ContentBlock.toolUse id n inp) :
    ∀ (xs : List α) (l : List ContentBlock), xs.mapM f = .ok l →
    ∀ s, ContentBlock.text s ∉ l := by
  intro xs
  induction xs with
  | nil =>
      intro l h s
      simp only [List.mapM_nil, pure, Except.pure] at h
      cases h
      exact List.not_mem_nil _
  | cons a as ih =>
      intro l h s hmem
      rw [List.mapM_cons] at h
      match hfa : f a with
      | .error e => rw [hfa] at h; simp [bind, Except.bind] at h
      | .ok b =>
          rw [hfa] at h
          match hrest : as.mapM f with
          | .error e =>
              rw [hrest] at h
              simp [bind, Except.bind] at h
          | .ok l2 =>
              rw [hrest] at h
              simp only [bind, Except.bind, pure, Except.pure, Except.ok.injEq] at h
              subst h
              rcases List.mem_cons.mp hmem with heq | hmem2
              · obtain ⟨id, n, inp, hb⟩ := hf a b hfa
                rw [hb] at heq
                cases heq
              · exact ih l2 hrest s hmem2

/-- C8: an assistant turn containing only tool calls and no text is converted
by `_convert_messages` into a wire message whose `content` is `None` (never
the empty string), and the stored content blocks reconstructed for such a turn
contain no text block, both in the blocking decode (`content` of `None` or
`""`) and in the streaming decode (empty accumulated `full_content`). -/
theorem C8_omit_empty_text (blocks : List ContentBlock) (system : String)
    (hall : ∀ b ∈ blocks, ∃ id n a, b = ContentBlock.toolUse id n a) :
    convert_messages [.assistant blocks] system
      = [.system system, .assistant none (wireToolCallsOf blocks)]
    ∧ (∀ (fr : String) (tcs : List WireToolCall) (bs : List ContentBlock),
        decodeBlocks ⟨fr, none, tcs⟩ = .ok bs ∨ decodeBlocks ⟨fr, some "", tcs⟩ = .ok bs →
        ∀ s, ContentBlock.text s ∉ bs)
    ∧ (∀ (sortedSlots : List (Nat × Slot)) (bs : List ContentBlock),
        streamBlocks "" sortedSlots = .ok bs → ∀ s, ContentBlock.text s ∉ bs) := by
  have hshape1 : ∀ (tc : WireToolCall) (b : ContentBlock),
      (do
        let input ← loadsE tc.farguments
        pure (ContentBlock.toolUse tc.id tc.fname input)) = Except.ok b →
      ∃ id n inp, b = ContentBlock.toolUse id n inp := by
    intro tc b hb
    match hl : loadsE tc.farguments with
    | .error e => rw [hl] at hb; simp [bind, Except.bind] at hb
    | .ok v =>
        rw [hl] at hb
        simp only [bind, Except.bind, pure, Except.pure, Except.ok.injEq] at hb
        exact ⟨tc.id, tc.fname, v, hb.symm⟩
  have hshape2 : ∀ (p : Nat × Slot) (b : ContentBlock),
      (do
        let input ← slotArgs p.2
        pure (ContentBlock.toolUse p.2.id p.2.name input)) = Except.ok b →
      ∃ id n inp, b = ContentBlock.toolUse id n inp := by
    intro p b hb
    match hl : slotArgs p.2 with
    | .error e => rw [hl] at hb; simp [bind, Except.bind] at hb
    | .ok v =>
        rw [hl] at hb
        simp only [bind, Except.bind, pure, Except.pure, Except.ok.injEq] at hb
        exact ⟨p.2.id, p.2.name, v, hb.symm⟩
  refine ⟨?_, ?_, ?_⟩
  · simp [convert_messages, textContentOf_eq_empty blocks hall]
  · intro fr tcs bs h s
    rcases h with h | h <;>
      (simp only [decodeBlocks, bind, Except.bind] at h
       revert h
       match hm : tcs.mapM (fun tc => do
           let input ← loadsE tc.farguments
           pure (ContentBlock.toolUse tc.id tc.fname input)) with
       | .error e => intro h; cases h
       | .ok l =>
           intro h
           simp only [pure, Except.pure, Except.ok.injEq] at h
           subst h
           intro hmem
           have hl2 : ContentBlock.text s ∈ l := by
             revert hmem
             simp
           exact mapM_only_toolUse _ hshape1 tcs l hm s hl2)
  · intro sortedSlots bs h s
    simp only [streamBlocks, bind, Except.bind] at h
    revert h
    match hm : sortedSlots.mapM (fun p => do
        let input ← slotArgs p.2
        pure (ContentBlock.toolUse p.2.id p.2.name input)) with
    | .error e => intro h; cases h
    | .ok l =>
        intro h
        simp only [pure, Except.pure, Except.ok.injEq] at h
        subst h
        intro hmem
        have hl2 : ContentBlock.text s ∈ l := by
          revert hmem
          simp
        exact mapM_only_toolUse _ hshape2 sortedSlots l hm s hl2

/-- C8 witness: one tool-only assistant turn converts with `content = none`,
and concrete decodes of text-free responses contain no text block. -/
theorem C8_omit_empty_text_witness :
    convert_messages [.assistant [.toolUse "call_1" "get_procedure_contact" (.jobj [])]] "sys"
      = [.system "sys",
         .assistant none (wireToolCallsOf [.toolUse "call_1" "get_procedure_contact" (.jobj [])])] := by
  have h := C8_omit_empty_text [.toolUse "call_1" "get_procedure_contact" (.jobj [])] "sys"
    (by
      intro b hb
      simp only [List.mem_singleton] at hb
      exact ⟨"call_1", "get_procedure_contact", .jobj [], hb⟩)
  exact h.1

/-! ### C7 support: Python-dict well-formedness (no duplicate keys) -/

/-- Key membership in an object field list. -/
def containsKey (fields : List (List Char × JVal)) (k : List Char) : Bool :=
  (fields.map Prod.fst).contains k

mutual
/-- A `JVal` is the image of an actual Python value exactly when every object
in it has distinct keys (Python `dict` keys are unique). -/
def wfJ : JVal → Bool
  | .jnull => true
  | .jbool _ => true
  | .jnum _ => true
  | .jstr _ => true
  | .jarr elements => wfElems elements
  | .jobj fields => wfFields fields

/-- Well-formedness over array items. -/
def wfElems : List JVal → Bool
  | [] => true
  | v :: rest => wfJ v && wfElems rest

/-- Well-formedness over object members: no later duplicate of the key, and a
well-formed value. -/
def wfFields : List (List Char × JVal) → Bool
  | [] => true
  | (k, v) :: rest => !containsKey rest k && wfJ v && wfFields rest
end

theorem wireToolCallsOf_map (calls : List (String × String × JVal)) :
    wireToolCallsOf (calls.map (fun c => ContentBlock.toolUse c.1 c.2.1 c.2.2))
      = calls.map (fun c => WireToolCall.mk c.1 c.2.1 (dumpsS c.2.2)) := by
  induction calls with
  | nil => rfl
  | cons c rest ih =>
      simp only [List.map_cons, wireToolCallsOf, List.filterMap_cons] at ih ⊢
      simp [ih]

theorem mapM_decode_dumps (calls : List (String × String × JVal)) :
    (calls.map (fun c => WireToolCall.mk c.1 c.2.1 (dumpsS c.2.2))).mapM
        (fun tc => do
          let input ← loadsE tc.farguments
          pure (ContentBlock.toolUse tc.id tc.fname input))
      = .ok (calls.map (fun c => ContentBlock.toolUse c.1 c.2.1 c.2.2)) := by
  induction calls with
  | nil => rfl
  | cons c rest ih =>
      simp only [List.map_cons, List.mapM_cons]
      have hload : loadsE (dumpsS c.2.2) = .ok c.2.2 := by
        simp [loadsE, loads_dumpsS]
      rw [hload]
      simp only [bind, Except.bind] at ih ⊢
      rw [ih]
      rfl

/-- C7: encoding an assistant turn made of tool calls through the
delta-protocol adapter's message conversion (`arguments := json.dumps(input)`
inside `_convert_messages`) and decoding a synthetic matching response
(`input := json.loads(arguments)` in the blocking loop) reconstructs an
assistant turn whose tool-call arguments equal the original mappings, for
every well-formed argument value (booleans, integers, strings, nested
mappings and ordered sequences). -/
theorem C7_arguments_roundtrip (calls : List (String × String × JVal)) (system : String)
    (hwf : ∀ c ∈ calls, wfJ c.2.2 = true) :
    convert_messages [.assistant (calls.map (fun c => ContentBlock.toolUse c.1 c.2.1 c.2.2))]
        system
      = [.system system,
         .assistant
           (if textContentOf (calls.map (fun c => ContentBlock.toolUse c.1 c.2.1 c.2.2)) = ""
            then none
            else some (textContentOf (calls.map (fun c => ContentBlock.toolUse c.1 c.2.1 c.2.2))))
           (calls.map (fun c => WireToolCall.mk c.1 c.2.1 (dumpsS c.2.2)))]
    ∧ decodeBlocks ⟨"tool_calls", none, calls.map (fun c => WireToolCall.mk c.1 c.2.1 (dumpsS c.2.2))⟩
        = .ok (calls.map (fun c => ContentBlock.toolUse c.1 c.2.1 c.2.2)) := by
  constructor
  · simp [convert_messages, wireToolCallsOf_map]
  · have h := mapM_decode_dumps calls
    simp only [decodeBlocks, bind, Except.bind] at h ⊢
    rw [h]
    rfl

/-- C7 witness: a nested argument mapping with a string, a number, a boolean,
an ordered sequence and a nested mapping survives the dumps/loads round trip
through the adapter. -/
theorem C7_arguments_roundtrip_witness :
    decodeBlocks ⟨"tool_calls", none,
        [WireToolCall.mk "call_1" "search_acr_criteria"
          (dumpsS (.jobj [("query".data, .jstr "head trauma".data),
                          ("limit".data, .jnum 5),
                          ("urgent".data, .jbool true),
                          ("tags".data, .jarr [.jstr "ct".data, .jstr "mri".data, .jnum (-2)]),
                          ("nested".data, .jobj [("deep".data, .jarr [.jnull, .jbool false])])]))]⟩
      = .ok [ContentBlock.toolUse "call_1" "search_acr_criteria"
          (.jobj [("query".data, .jstr "head trauma".data),
                  ("limit".data, .jnum 5),
                  ("urgent".data, .jbool true),
                  ("tags".data, .jarr [.jstr "ct".data, .jstr "mri".data, .jnum (-2)]),
                  ("nested".data, .jobj [("deep".data, .jarr [.jnull, .jbool false])])])] :=
  (C7_arguments_roundtrip
    [("call_1", "search_acr_criteria",
      .jobj [("query".data, .jstr "head trauma".data),
             ("limit".data, .jnum 5),
             ("urgent".data, .jbool true),
             ("tags".data, .jarr [.jstr "ct".data, .jstr "mri".data, .jnum (-2)]),
             ("nested".data, .jobj [("deep".data, .jarr [.jnull, .jbool false])])])]
    "sys"
    (by
      intro c hc
      simp only [List.mem_singleton] at hc
      subst hc
      rfl)).2

/-! ### C6 support: lookup and erase facts -/

theorem lookupKey_some_mem (s : List (String × (Nat × Nat))) (key : String)
    (e : Nat × Nat) (h : lookupKey s key = some e) : key ∈ s.map Prod.fst := by
  induction s with
  | nil => simp [lookupKey] at h
  | cons kv rest ih =>
      obtain ⟨k, e0⟩ := kv
      by_cases heq : k = key
      · simp [heq]
      · simp only [lookupKey, if_neg heq] at h
        simp [ih h]

theorem lookupKey_eraseKey_self (s : List (String × (Nat × Nat))) (key : String)
    (hnd : (s.map Prod.fst).Nodup) :
    lookupKey (eraseKey s key) key = none := by
  induction s with
  | nil => rfl
  | cons kv rest ih =>
      obtain ⟨k, e⟩ := kv
      simp only [List.map_cons, List.nodup_cons] at hnd
      obtain ⟨hk, hndr⟩ := hnd
      by_cases heq : k = key
      · subst heq
        simp only [eraseKey, if_pos rfl]
        match hlook : lookupKey rest k with
        | none => rfl
        | some e2 => exact absurd (lookupKey_some_mem rest k e2 hlook) hk
      · simp only [eraseKey, if_neg heq, lookupKey, if_neg heq]
        exact ih hndr

theorem mem_eraseKey_of_ne (s : List (String × (Nat × Nat))) (key k2 : String)
    (e2 : Nat × Nat) (h : k2 ≠ key) :
    (k2, e2) ∈ eraseKey s key ↔ (k2, e2) ∈ s := by
  induction s with
  | nil => simp [eraseKey]
  | cons kv rest ih =>
      obtain ⟨k, e⟩ := kv
      by_cases heq : k = key
      · subst heq
        simp only [eraseKey, if_pos rfl, List.mem_cons]
        constructor
        · intro hmem; exact Or.inr hmem
        · rintro (hmem | hmem)
          · simp only [Prod.mk.injEq] at hmem
            exact absurd hmem.1 h
          · exact hmem
      · simp only [eraseKey, if_neg heq, List.mem_cons, ih]

theorem lookupKey_assignKey_self (s : List (String × (Nat × Nat))) (key : String)
    (e : Nat × Nat) :
    lookupKey (assignKey s key e) key = some e := by
  induction s with
  | nil => simp [assignKey, lookupKey]
  | cons kv rest ih =>
      obtain ⟨k, e0⟩ := kv
      by_cases heq : k = key
      · subst heq
        simp [assignKey, lookupKey]
      · simp only [assignKey, if_neg heq, lookupKey, if_neg heq]
        exact ih

/-- C6: a session entry whose age has reached the TTL is treated as absent on
the next access: `get` deletes it and returns `None` (leaving every other
entry untouched — there is no background sweep, state only changes through
these operations), so `get_session` invokes the factory again and binds a
fresh chat under the same composite key with the current time as its creation
stamp. -/
theorem C6_ttl_expiry (st : SessionStore) (now : Nat) (sid : String) (model : Option String)
    (chat created fresh : Nat) (key : String)
    (hkey : key = sid ++ ":" ++ model.getD "default")
    (hnd : (st.sessions.map Prod.fst).Nodup)
    (hk : lookupKey st.sessions key = some (chat, created))
    (hexp : st.ttl ≤ now - created) :
    (st.get now key).1 = none
    ∧ (st.get now key).2.sessions = eraseKey st.sessions key
    ∧ lookupKey (st.get now key).2.sessions key = none
    ∧ (∀ k2 e2, k2 ≠ key → ((k2, e2) ∈ (st.get now key).2.sessions ↔ (k2, e2) ∈ st.sessions))
    ∧ get_session st now sid model fresh
        = (fresh, SessionStore.set ⟨eraseKey st.sessions key, st.max_size, st.ttl⟩ now key fresh)
    ∧ lookupKey (get_session st now sid model fresh).2.sessions key = some (fresh, now) := by
  have hlt : ¬(now - created < st.ttl) := by omega
  have hget : st.get now key = (none, ⟨eraseKey st.sessions key, st.max_size, st.ttl⟩) := by
    simp [SessionStore.get, hk, hlt]
  refine ⟨by rw [hget], by rw [hget], ?_, ?_, ?_, ?_⟩
  · rw [hget]
    exact lookupKey_eraseKey_self st.sessions key hnd
  · intro k2 e2 hne
    rw [hget]
    exact mem_eraseKey_of_ne st.sessions key k2 e2 hne
  · rw [get_session, ← hkey, hget]
  · rw [get_session, ← hkey, hget]
    exact lookupKey_assignKey_self _ key (fresh, now)

/-- C6 witness: an entry created at time 0 with TTL 5 accessed at time 9 is
replaced by the factory result. -/
theorem C6_ttl_expiry_witness :
    ((SessionStore.get ⟨[("s:m", (7, 0))], 10, 5⟩ 9 "s:m").1 = none)
    ∧ (get_session ⟨[("s:m", (7, 0))], 10, 5⟩ 9 "s" (some "m") 42).1 = 42
    ∧ lookupKey (get_session ⟨[("s:m", (7, 0))], 10, 5⟩ 9 "s" (some "m") 42).2.sessions "s:m"
        = some (42, 9) := by
  have h := C6_ttl_expiry ⟨[("s:m", (7, 0))], 10, 5⟩ 9 "s" (some "m") 7 0 42 "s:m"
    (by decide) (by decide) (by decide) (by decide)
  refine ⟨h.1, ?_, h.2.2.2.2.2⟩
  rw [h.2.2.2.2.1]

/-! ### C5 support: capacity eviction facts -/

theorem evictOldest_of_lt (maxSize : Nat) (s : List (String × (Nat × Nat)))
    (h : s.length < maxSize) : evictOldest maxSize s = s := by
  match s with
  | [] => rfl
  | x :: xs =>
      rw [evictOldest]
      rw [if_neg (by omega)]

theorem evictOldest_at_cap (maxSize : Nat) (s : List (String × (Nat × Nat)))
    (h : s.length = maxSize) (h1 : 1 ≤ maxSize) : evictOldest maxSize s = s.tail := by
  match s with
  | [] => simp at h; omega
  | x :: xs =>
      rw [evictOldest, if_pos (by omega)]
      exact evictOldest_of_lt maxSize xs (by simp at h; omega)

theorem assignKey_not_mem (s : List (String × (Nat × Nat))) (key : String) (e : Nat × Nat)
    (h : key ∉ s.map Prod.fst) : assignKey s key e = s ++ [(key, e)] := by
  induction s with
  | nil => rfl
  | cons kv rest ih =>
      obtain ⟨k, e0⟩ := kv
      simp only [List.map_cons, List.mem_cons, not_or] at h
      rw [assignKey, if_neg (fun hc => h.1 hc.symm)]
      simp [ih h.2]

theorem lookupKey_none_iff_not_mem (s : List (String × (Nat × Nat))) (key : String) :
    lookupKey s key = none ↔ key ∉ s.map Prod.fst := by
  induction s with
  | nil => simp [lookupKey]
  | cons kv rest ih =>
      obtain ⟨k, e⟩ := kv
      by_cases heq : k = key
      · subst heq
        simp [lookupKey]
      · simp only [lookupKey, if_neg heq, List.map_cons, List.mem_cons, ih]
        constructor
        · intro h hc
          rcases hc with hc | hc
          · exact heq hc.symm
          · exact h hc
        · intro h hc
          exact h (Or.inr hc)

theorem lookupKey_append_left_none (A B : List (String × (Nat × Nat))) (key : String)
    (h : lookupKey A key = none) : lookupKey (A ++ B) key = lookupKey B key := by
  induction A with
  | nil => rfl
  | cons kv rest ih =>
      obtain ⟨k, e⟩ := kv
      by_cases heq : k = key
      · subst heq; simp [lookupKey] at h
      · simp only [lookupKey, if_neg heq] at h
        simp only [List.cons_append, lookupKey, if_neg heq]
        exact ih h

theorem eraseKey_sublist (s : List (String × (Nat × Nat))) (key : String) :
    (eraseKey s key).Sublist s := by
  induction s with
  | nil => simp [eraseKey]
  | cons kv rest ih =>
      obtain ⟨k, e⟩ := kv
      by_cases heq : k = key
      · rw [eraseKey, if_pos heq]
        exact List.sublist_cons_self _ _
      · rw [eraseKey, if_neg heq]
        exact List.Sublist.cons₂ _ ih

theorem length_eraseKey_of_some (s : List (String × (Nat × Nat))) (key : String)
    (e : Nat × Nat) (h : lookupKey s key = some e) :
    (eraseKey s key).length + 1 = s.length := by
  induction s with
  | nil => simp [lookupKey] at h
  | cons kv rest ih =>
      obtain ⟨k, e0⟩ := kv
      by_cases heq : k = key
      · rw [eraseKey, if_pos heq]
        simp
      · rw [eraseKey, if_neg heq]
        simp only [lookupKey, if_neg heq] at h
        have := ih h
        simp only [List.length_cons]
        omega

/-- Test driver for the capacity property: insert the listed key/chat pairs in
order, each via `SessionStore.set` at the same clock value. -/
def insertKeys (st : SessionStore) (now : Nat) (ks : List (String × Nat)) : SessionStore :=
  ks.foldl (fun s kc => s.set now kc.1 kc.2) st

theorem insertKeys_max_size (ks : List (String × Nat)) :
    ∀ (st : SessionStore) (now : Nat), (insertKeys st now ks).max_size = st.max_size := by
  induction ks with
  | nil => intro st now; rfl
  | cons kc ks ih => intro st now; exact ih _ now

theorem insertKeys_extend (ks : List (String × Nat)) :
    ∀ (st : SessionStore) (now : Nat),
    (∀ a ∈ ks.map Prod.fst, a ∉ st.sessions.map Prod.fst) →
    (ks.map Prod.fst).Nodup →
    st.sessions.length + ks.length ≤ st.max_size →
    (insertKeys st now ks).sessions
      = st.sessions ++ ks.map (fun kc => (kc.1, (kc.2, now))) := by
  induction ks with
  | nil => intro st now _ _ _; simp [insertKeys]
  | cons kc ks ih =>
      intro st now hdisj hndks hlen
      obtain ⟨k, c⟩ := kc
      simp only [List.map_cons, List.nodup_cons] at hndks
      have hkA : k ∉ st.sessions.map Prod.fst := hdisj k (by simp)
      have hstep : (st.set now k c).sessions = st.sessions ++ [(k, (c, now))] := by
        rw [SessionStore.set]
        rw [evictOldest_of_lt _ _ (by simp at hlen; omega)]
        exact assignKey_not_mem _ k _ hkA
      have hdisj2 : ∀ a ∈ ks.map Prod.fst, a ∉ (st.set now k c).sessions.map Prod.fst := by
        intro a ha
        rw [hstep]
        simp only [List.map_append, List.map_cons, List.map_nil, List.mem_append,
          List.mem_singleton, not_or]
        exact ⟨hdisj a (by simp [ha]), fun hc => hndks.1 (hc ▸ ha)⟩
      have hlen2 : (st.set now k c).sessions.length + ks.length ≤ (st.set now k c).max_size := by
        rw [hstep, show (st.set now k c).max_size = st.max_size from rfl]
        simp only [List.length_append, List.length_cons, List.length_nil]
        simp only [List.length_cons] at hlen
        omega
      have hrec := ih (st.set now k c) now hdisj2 hndks.2 hlen2
      simp only [insertKeys, List.foldl_cons] at hrec ⊢
      rw [hrec, hstep]
      simp

/-- C5: the session store is a capacity-bounded LRU map.  First part:
inserting `max_size + 1` distinct keys into an empty store (no intervening
reads) leaves exactly the last `max_size` of them — the store evicts the first
inserted, least recently used, key.  Second part: a `get` on a live key moves
it to the most-recently-used end, so after touching `k` an overflow insert of
a fresh key keeps `k` and instead evicts the head of the remaining order — the
least recently accessed other key. -/
theorem C5_lru_eviction :
    (∀ (M ttl now : Nat) (ks : List (String × Nat)),
      1 ≤ M → ks.length = M + 1 → (ks.map Prod.fst).Nodup →
      (insertKeys ⟨[], M, ttl⟩ now ks).sessions
          = ks.tail.map (fun kc => (kc.1, (kc.2, now)))
        ∧ (insertKeys ⟨[], M, ttl⟩ now ks).sessions.length = M)
    ∧ (∀ (st : SessionStore) (now now2 : Nat) (k knew : String) (chat created cnew : Nat),
      st.sessions.length = st.max_size → 2 ≤ st.max_size →
      (st.sessions.map Prod.fst).Nodup →
      lookupKey st.sessions k = some (chat, created) →
      now - created < st.ttl →
      knew ∉ st.sessions.map Prod.fst →
      (((st.get now k).2.set now2 knew cnew).sessions
          = (eraseKey st.sessions k).tail
              ++ [(k, (chat, created)), (knew, (cnew, now2))]
        ∧ ((st.get now k).2.set now2 knew cnew).sessions.length = st.max_size
        ∧ lookupKey ((st.get now k).2.set now2 knew cnew).sessions k = some (chat, created)
        ∧ ∃ ev, (eraseKey st.sessions k).head? = some ev
            ∧ ev.1 ∉ (((st.get now k).2.set now2 knew cnew).sessions.map Prod.fst))) := by
  constructor
  · intro M ttl now ks hM hlen hnd
    have hne : ks ≠ [] := by intro hc; rw [hc] at hlen; simp at hlen
    have hsplit := List.dropLast_append_getLast hne
    set kl := ks.getLast hne with hkl
    have hlenD : ks.dropLast.length = M := by
      rw [List.length_dropLast, hlen]
      omega
    have hndD : ((ks.dropLast.map Prod.fst) ++ [kl.1]).Nodup := by
      have : ks.map Prod.fst = ks.dropLast.map Prod.fst ++ [kl.1] := by
        conv_lhs => rw [← hsplit]
        simp
      rwa [this] at hnd
    rw [List.nodup_append] at hndD
    have hklD : kl.1 ∉ ks.dropLast.map Prod.fst := by
      intro hc
      exact hndD.2.2 hc (by simp)
    have hfill : (insertKeys ⟨[], M, ttl⟩ now ks.dropLast).sessions
        = ks.dropLast.map (fun kc => (kc.1, (kc.2, now))) := by
      have := insertKeys_extend ks.dropLast ⟨[], M, ttl⟩ now
        (by intro a _ hc; simp at hc) hndD.1 (by simp [hlenD])
      simpa using this
    have hsfold : insertKeys ⟨[], M, ttl⟩ now ks
        = (insertKeys ⟨[], M, ttl⟩ now ks.dropLast).set now kl.1 kl.2 := by
      conv_lhs => rw [← hsplit]
      rw [insertKeys, List.foldl_append]
      rfl
    have hmaxA : (insertKeys ⟨[], M, ttl⟩ now ks.dropLast).max_size = M := by
      rw [insertKeys_max_size]
    have hlenA : (insertKeys ⟨[], M, ttl⟩ now ks.dropLast).sessions.length = M := by
      rw [hfill, List.length_map, hlenD]
    have hkeysA : (insertKeys ⟨[], M, ttl⟩ now ks.dropLast).sessions.map Prod.fst
        = ks.dropLast.map Prod.fst := by
      rw [hfill, List.map_map]
      rfl
    have hset : ((insertKeys ⟨[], M, ttl⟩ now ks.dropLast).set now kl.1 kl.2).sessions
        = (insertKeys ⟨[], M, ttl⟩ now ks.dropLast).sessions.tail ++ [(kl.1, (kl.2, now))] := by
      rw [SessionStore.set, hmaxA]
      rw [evictOldest_at_cap M _ hlenA hM]
      apply assignKey_not_mem
      intro hc
      apply hklD
      have hsub : (insertKeys ⟨[], M, ttl⟩ now ks.dropLast).sessions.tail.map Prod.fst
          = (ks.dropLast.map (fun kc => (kc.1, (kc.2, now)))).tail.map Prod.fst := by
        rw [hfill]
      rw [hsub] at hc
      have htail : (ks.dropLast.map (fun kc => (kc.1, (kc.2, now)))).tail.map Prod.fst
          = (ks.dropLast.tail.map (fun kc => (kc.1, (kc.2, now)))).map Prod.fst := by
        cases ks.dropLast with
        | nil => rfl
        | cons a l => rfl
      rw [htail, List.map_map] at hc
      have : kl.1 ∈ ks.dropLast.tail.map Prod.fst := by
        simpa using hc
      have hsub2 : (ks.dropLast.tail.map Prod.fst).Sublist (ks.dropLast.map Prod.fst) :=
        (List.tail_sublist _).map _
      exact hsub2.subset this
    have htail2 : (insertKeys ⟨[], M, ttl⟩ now ks.dropLast).sessions.tail
        = ks.dropLast.tail.map (fun kc => (kc.1, (kc.2, now))) := by
      rw [hfill]
      cases ks.dropLast with
      | nil => rfl
      | cons a l => rfl
    have hDne : ks.dropLast ≠ [] := by
      intro hc
      rw [hc] at hlenD
      simp at hlenD
      omega
    have hkstail : ks.tail = ks.dropLast.tail ++ [kl] := by
      conv_lhs => rw [← hsplit]
      cases hD : ks.dropLast with
      | nil => exact absurd hD hDne
      | cons a l => rfl
    constructor
    · rw [hsfold, hset, htail2, hkstail]
      simp
    · rw [hsfold, hset, htail2]
      simp only [List.length_append, List.length_map, List.length_cons, List.length_nil,
        List.length_tail, hlenD]
      omega
  · intro st now now2 k knew chat created cnew hcap hM hnd hk hlive hknew
    have hget : (st.get now k).2.sessions
        = eraseKey st.sessions k ++ [(k, (chat, created))] := by
      simp [SessionStore.get, hk, hlive]
    have hmaxg : (st.get now k).2.max_size = st.max_size := by
      simp [SessionStore.get, hk, hlive]
    have hlenE : (eraseKey st.sessions k).length + 1 = st.max_size := by
      rw [length_eraseKey_of_some st.sessions k _ hk]
      exact hcap
    have hkeysE : ((eraseKey st.sessions k).map Prod.fst).Sublist
        (st.sessions.map Prod.fst) :=
      (eraseKey_sublist st.sessions k).map _
    have hndE : ((eraseKey st.sessions k).map Prod.fst).Nodup := hnd.sublist hkeysE
    have hkE : k ∉ (eraseKey st.sessions k).map Prod.fst := by
      rw [← lookupKey_none_iff_not_mem]
      exact lookupKey_eraseKey_self st.sessions k hnd
    obtain ⟨⟨evk, evE⟩, E2, hEeq⟩ :
        ∃ ev E2, eraseKey st.sessions k = ev :: E2 := by
      match hE : eraseKey st.sessions k with
      | [] => rw [hE] at hlenE; simp at hlenE; omega
      | ev :: E2 => exact ⟨ev, E2, rfl⟩
    have hlenG : (st.get now k).2.sessions.length = st.max_size := by
      rw [hget]
      simp only [List.length_append, List.length_cons, List.length_nil]
      omega
    have hset2 : ((st.get now k).2.set now2 knew cnew).sessions
        = (eraseKey st.sessions k).tail ++ [(k, (chat, created)), (knew, (cnew, now2))] := by
      rw [SessionStore.set, hmaxg]
      rw [evictOldest_at_cap _ _ hlenG (by omega)]
      rw [hget, hEeq]
      simp only [List.cons_append, List.tail_cons]
      rw [assignKey_not_mem]
      · simp
      · simp only [List.map_append, List.map_cons, List.map_nil, List.mem_append,
          List.mem_cons, List.not_mem_nil, or_false, not_or]
        refine ⟨?_, ?_⟩
        · intro hc
          apply hknew
          have : knew ∈ (eraseKey st.sessions k).map Prod.fst := by
            rw [hEeq]
            simp [hc]
          exact hkeysE.subset this
        · intro hc
          exact hknew (hc ▸ lookupKey_some_mem st.sessions k _ hk)
    refine ⟨hset2, ?_, ?_, ?_⟩
    · rw [hset2, hEeq]
      simp only [List.tail_cons, List.length_append, List.length_cons, List.length_nil]
      rw [hEeq] at hlenE
      simp only [List.length_cons] at hlenE
      omega
    · rw [hset2]
      have hkT : lookupKey (eraseKey st.sessions k).tail k = none := by
        rw [lookupKey_none_iff_not_mem]
        intro hc
        apply hkE
        have : ((eraseKey st.sessions k).tail.map Prod.fst).Sublist
            ((eraseKey st.sessions k).map Prod.fst) := (List.tail_sublist _).map _
        exact this.subset hc
      rw [lookupKey_append_left_none _ _ _ hkT]
      simp [lookupKey]
    · refine ⟨(evk, evE), by rw [hEeq]; rfl, ?_⟩
      rw [hset2, hEeq]
      simp only [List.tail_cons, List.map_append, List.map_cons, List.map_nil,
        List.mem_append, List.mem_cons, List.not_mem_nil, or_false, not_or]
      have hmemev : evk ∈ (eraseKey st.sessions k).map Prod.fst := by
        rw [hEeq]; simp
      refine ⟨?_, ?_, ?_⟩
      · intro hc
        rw [hEeq] at hndE
        simp only [List.map_cons, List.nodup_cons] at hndE
        exact hndE.1 hc
      · intro hc
        exact hkE (hc ▸ hmemev)
      · intro hc
        exact hknew (hc ▸ hkeysE.subset hmemev)

/-- C5 witness: capacity 2; three distinct inserts evict the first key, and
touching `"a"` before an overflow insert makes `"b"` the evicted key. -/
theorem C5_lru_eviction_witness :
    (insertKeys ⟨[], 2, 5⟩ 0 [("a", 1), ("b", 2), ("c", 3)]).sessions
        = [("b", (2, 0)), ("c", (3, 0))]
    ∧ ((SessionStore.get ⟨[("a", (1, 0)), ("b", (2, 0))], 2, 3600⟩ 1 "a").2.set 2 "c" 3).sessions
        = [("a", (1, 0)), ("c", (3, 2))] := by
  constructor
  · have h := (C5_lru_eviction.1 2 5 0 [("a", 1), ("b", 2), ("c", 3)]
      (by decide) (by decide) (by decide)).1
    rw [h]
    rfl
  · have h := (C5_lru_eviction.2 ⟨[("a", (1, 0)), ("b", (2, 0))], 2, 3600⟩ 1 2 "a" "c" 1 0 3
      (by decide) (by decide) (by decide) (by decide) (by decide) (by decide)).1
    rw [h]
    rfl


/-- C2 counterexample: the claim as stated is false.  For the spec's own
scenario — accumulated argument text `\x7b"a": 1` with no closing brace —
`chat_stream` does not invoke the tool with an empty-arguments mapping; the
`json.loads` call raises (modelled as the `jsonDecodeError` outcome) and the
loop aborts. -/
theorem C2_counterexample :
    GitHubModelsProvider.chat_stream (fun _ _ => .ok (.jobj []))
        [[some (StreamDelta.mk ""
          [DeltaToolCall.mk 0 "call_1" true "some_tool" "\x7b\x22a\x22: 1"])]]
        "sys" [] 10
      = .error .jsonDecodeError
    ∧ loads "\x7b\x22a\x22: 1" = none :=
  ⟨rfl, rfl⟩


/-- C2 as amended: only an *empty* accumulated argument string is mapped to
the empty-arguments dict (`json.loads(a) if a else \x7b\x7d` guards only
falsiness); the tool is then invoked with the empty mapping and the loop
continues.  A non-empty accumulated string that is not valid JSON makes
`json.loads` raise, shown by the second conjunct. -/
theorem C2_empty_args (executor : ToolExecutor) (r : JVal) (msgs : List Message)
    (fuel : Nat) (hx : executor "my_tool" (.jobj []) = .ok r) :
    GitHubModelsProvider.chat_stream executor
        [[some (StreamDelta.mk "" [DeltaToolCall.mk 0 "call_1" true "my_tool" ""])],
         [some (StreamDelta.mk "done" [])]]
        "sys" msgs (fuel + 2)
      = .ok (["__TOOL_START__my_tool__",
              "__TOOL_RESULT__" ++ String.mk (dumps (.jobj
                [("type".data, .jstr "contacts".data),
                 ("tool".data, .jstr "my_tool".data),
                 ("data".data, r)])) ++ "__",
              "done"],
             msgs ++ [.assistant [.toolUse "call_1" "my_tool" (.jobj [])],
                      .toolResults [⟨"call_1", dumpsIndent 0 r⟩]], 2)
    ∧ (∀ s : Slot, s.arguments ≠ "" → loads s.arguments = none →
        slotArgs s = .error .jsonDecodeError) := by
  constructor
  · have hpass : streamToolPass executor [(0, Slot.mk "call_1" "my_tool" "")]
        = .ok (["__TOOL_START__my_tool__",
                "__TOOL_RESULT__" ++ String.mk (dumps (.jobj
                  [("type".data, .jstr "contacts".data),
                   ("tool".data, .jstr "my_tool".data),
                   ("data".data, r)])) ++ "__"],
               [⟨"call_1", dumpsIndent 0 r⟩]) := by
      simp only [streamToolPass, bind, Except.bind]
      rw [show slotArgs (Slot.mk "call_1" "my_tool" "") = .ok (.jobj []) from rfl]
      simp only []
      rw [hx]
      rfl
    simp only [GitHubModelsProvider.chat_stream, ghChatStreamLoop]
    rw [show List.foldl processChunk (StreamAccum.mk "" [] [])
          [some (StreamDelta.mk "" [DeltaToolCall.mk 0 "call_1" true "my_tool" ""])]
        = StreamAccum.mk "" [(0, Slot.mk "call_1" "my_tool" "")] [] from rfl]
    rw [show List.foldl processChunk (StreamAccum.mk "" [] [])
          [some (StreamDelta.mk "done" [])]
        = StreamAccum.mk "done" [] ["done"] from rfl]
    rw [show sortSlots [(0, Slot.mk "call_1" "my_tool" "")]
        = [(0, Slot.mk "call_1" "my_tool" "")] from rfl]
    rw [hpass]
    rfl
  · intro s hne hload
    simp [slotArgs, hne, loadsE, hload]

/-- C2 amended witness: a concrete executor receiving the empty mapping. -/
theorem C2_empty_args_witness :
    GitHubModelsProvider.chat_stream (fun _ _ => ToolOutcome.ok (.jobj []))
        [[some (StreamDelta.mk "" [DeltaToolCall.mk 0 "call_1" true "my_tool" ""])],
         [some (StreamDelta.mk "done" [])]]
        "sys" [] 2
      = .ok (["__TOOL_START__my_tool__",
              "__TOOL_RESULT__" ++ String.mk (dumps (.jobj
                [("type".data, .jstr "contacts".data),
                 ("tool".data, .jstr "my_tool".data),
                 ("data".data, .jobj [])])) ++ "__",
              "done"],
             [.assistant [.toolUse "call_1" "my_tool" (.jobj [])],
              .toolResults [⟨"call_1", dumpsIndent 0 (.jobj [])⟩]], 2) :=
  (C2_empty_args (fun _ _ => ToolOutcome.ok (.jobj [])) (.jobj []) [] 0 rfl).1

/-- C3 counterexample: the claim as stated is false.  A tool executor that
raises does not produce an in-band `("error": ...)` tool result: neither
blocking loop wraps the `tool_executor` call in `try`, so the exception
(modelled as the `toolException` outcome) propagates and aborts the loop with
nothing appended. -/
theorem C3_counterexample :
    RadChat.chat (fun _ _ => ToolOutcome.exn "boom")
        [AnthropicResponse.mk "tool_use" [.toolUse "id1" "some_tool" (.jobj [])]] [] "hi" 10
      = .error (.toolException "boom")
    ∧ GitHubModelsProvider.chat (fun _ _ => ToolOutcome.exn "boom")
        [OpenAIResponse.mk "tool_calls" none [WireToolCall.mk "id1" "some_tool" "\x7b\x7d"]]
        "sys" [] 10
      = .error (.toolException "boom") :=
  ⟨rfl, rfl⟩

/-- C3 as amended: an exception raised by the tool executor is NOT converted
into an in-band `("error": "<message>")` tool result — the loops have no
handler around the executor call, so the exception propagates out of
`chat`, aborting the loop (the HTTP layer in server.py, outside the
orchestrator, is what eventually reports it).  The tools themselves return
in-band error mappings only for their own "not found" cases. -/
theorem C3_exception_propagates (executor : ToolExecutor) (id name m : String) (args : JVal)
    (hexn : executor name args = .exn m) :
    (∀ (rest : List AnthropicResponse) (msgs : List Message) (user : String) (fuel : Nat),
      RadChat.chat executor (AnthropicResponse.mk "tool_use" [.toolUse id name args] :: rest)
          msgs user (fuel + 1)
        = .error (.toolException m))
    ∧ (∀ (rest : List OpenAIResponse) (system : String) (msgs : List Message) (fuel : Nat),
      GitHubModelsProvider.chat executor
          (OpenAIResponse.mk "tool_calls" none [WireToolCall.mk id name (dumpsS args)] :: rest)
          system msgs (fuel + 1)
        = .error (.toolException m)) := by
  constructor
  · intro rest msgs user fuel
    have hcol : collectToolResults executor [.toolUse id name args]
        = .error (.toolException m) := by
      simp [collectToolResults, hexn]
    simp only [RadChat.chat, radChatLoop]
    rw [if_pos (by simp), hcol]
  · intro rest system msgs fuel
    have hdec : decodeBlocks ⟨"tool_calls", none, [WireToolCall.mk id name (dumpsS args)]⟩
        = .ok [ContentBlock.toolUse id name args] := by
      have h := mapM_decode_dumps [(id, name, args)]
      simp only [List.map_cons, List.map_nil] at h
      simp only [decodeBlocks, bind, Except.bind] at h ⊢
      rw [h]
      rfl
    have hcol : ghCollectResults executor [WireToolCall.mk id name (dumpsS args)]
        = .error (.toolException m) := by
      simp only [ghCollectResults, bind, Except.bind]
      rw [show loadsE (dumpsS args) = .ok args from by simp [loadsE, loads_dumpsS]]
      simp only []
      rw [hexn]
    simp only [GitHubModelsProvider.chat, ghChatLoop]
    rw [if_pos (by simp), hdec, hcol]

/-- C3 amended witness: a concrete raising executor aborts both loops. -/
theorem C3_exception_propagates_witness :
    RadChat.chat (fun _ _ => ToolOutcome.exn "boom")
        [AnthropicResponse.mk "tool_use" [.toolUse "id9" "other_tool" (.jobj [])]] [] "hi" 1
      = .error (.toolException "boom") :=
  (C3_exception_propagates (fun _ _ => ToolOutcome.exn "boom") "id9" "other_tool" "boom"
    (.jobj []) rfl).1 [] [] "hi" 0

/-! ### C1 support: loops under a total executor and tool-using responses -/

theorem collectToolResults_total (executor : ToolExecutor)
    (hok : ∀ n a, ∃ v, executor n a = ToolOutcome.ok v) (blocks : List ContentBlock) :
    ∃ items, collectToolResults executor blocks = .ok items := by
  induction blocks with
  | nil => exact ⟨[], rfl⟩
  | cons b rest ih =>
      obtain ⟨items, hi⟩ := ih
      cases b with
      | text s => exact ⟨items, by simpa [collectToolResults] using hi⟩
      | toolUse id name input =>
          obtain ⟨v, hv⟩ := hok name input
          refine ⟨⟨id, dumpsIndent 0 v⟩ :: items, ?_⟩
          simp only [collectToolResults]
          rw [hv, hi]

theorem radChatLoop_all_tools (executor : ToolExecutor)
    (hok : ∀ n a, ∃ v, executor n a = ToolOutcome.ok v) :
    ∀ (responses : List AnthropicResponse) (msgs : List Message),
    (∀ resp ∈ responses, resp.stop_reason = "tool_use") →
    ∃ finalMsgs, radChatLoop executor responses msgs responses.length
      = .ok ("Maximum conversation turns reached.", finalMsgs, responses.length) := by
  intro responses
  induction responses with
  | nil => intro msgs _; exact ⟨msgs, rfl⟩
  | cons r rest ih =>
      intro msgs hall
      obtain ⟨items, hcol⟩ := collectToolResults_total executor hok r.content
      obtain ⟨fm, hrec⟩ := ih (msgs ++ [.assistant r.content, .toolResults items])
        (fun resp h => hall resp (by simp [h]))
      refine ⟨fm, ?_⟩
      simp only [List.length_cons, radChatLoop]
      rw [if_pos (hall r (by simp)), hcol]
      simp only []
      rw [hrec]

theorem mapM_decode_total (tcs : List WireToolCall)
    (hargs : ∀ tc ∈ tcs, (loads tc.farguments).isSome = true) :
    ∃ l, tcs.mapM (fun tc => do
        let input ← loadsE tc.farguments
        pure (ContentBlock.toolUse tc.id tc.fname input)) = Except.ok l := by
  induction tcs with
  | nil => exact ⟨[], rfl⟩
  | cons tc rest ih =>
      obtain ⟨l, hl⟩ := ih (fun x hx => hargs x (by simp [hx]))
      have hsome := hargs tc (by simp)
      obtain ⟨v, hv⟩ := Option.isSome_iff_exists.mp hsome
      refine ⟨ContentBlock.toolUse tc.id tc.fname v :: l, ?_⟩
      rw [List.mapM_cons]
      rw [show loadsE tc.farguments = .ok v from by simp [loadsE, hv]]
      simp only [bind, Except.bind] at hl ⊢
      rw [hl]
      rfl

theorem decodeBlocks_total (r : OpenAIResponse)
    (hargs : ∀ tc ∈ r.tool_calls, (loads tc.farguments).isSome = true) :
    ∃ blocks, decodeBlocks r = .ok blocks := by
  obtain ⟨l, hl⟩ := mapM_decode_total r.tool_calls hargs
  refine ⟨(match r.content with
    | some s => if s = "" then [] else [ContentBlock.text s]
    | none => []) ++ l, ?_⟩
  simp only [decodeBlocks, bind, Except.bind] at hl ⊢
  rw [hl]
  rfl

theorem ghCollectResults_total (executor : ToolExecutor)
    (hok : ∀ n a, ∃ v, executor n a = ToolOutcome.ok v) (tcs : List WireToolCall)
    (hargs : ∀ tc ∈ tcs, (loads tc.farguments).isSome = true) :
    ∃ items, ghCollectResults executor tcs = .ok items := by
  induction tcs with
  | nil => exact ⟨[], rfl⟩
  | cons tc rest ih =>
      obtain ⟨items, hi⟩ := ih (fun x hx => hargs x (by simp [hx]))
      obtain ⟨v, hv⟩ := Option.isSome_iff_exists.mp (hargs tc (by simp))
      obtain ⟨w, hw⟩ := hok tc.fname v
      refine ⟨⟨tc.id, dumpsIndent 0 w⟩ :: items, ?_⟩
      simp only [ghCollectResults, bind, Except.bind]
      rw [show loadsE tc.farguments = .ok v from by simp [loadsE, hv]]
      simp only []
      rw [hw]
      simp only []
      rw [hi]

theorem ghChatLoop_all_tools (executor : ToolExecutor)
    (hok : ∀ n a, ∃ v, executor n a = ToolOutcome.ok v) :
    ∀ (responses : List OpenAIResponse) (system : String) (msgs : List Message),
    (∀ resp ∈ responses, resp.tool_calls ≠ []
      ∧ ∀ tc ∈ resp.tool_calls, (loads tc.farguments).isSome = true) →
    ∃ finalMsgs, ghChatLoop executor responses system msgs responses.length
      = .ok ("Maximum conversation turns reached.", finalMsgs, responses.length) := by
  intro responses
  induction responses with
  | nil => intro system msgs _; exact ⟨msgs, rfl⟩
  | cons r rest ih =>
      intro system msgs hall
      obtain ⟨blocks, hdec⟩ := decodeBlocks_total r (hall r (by simp)).2
      obtain ⟨items, hcol⟩ := ghCollectResults_total executor hok r.tool_calls
        (hall r (by simp)).2
      obtain ⟨fm, hrec⟩ := ih system (msgs ++ [.assistant blocks, .toolResults items])
        (fun resp h => hall resp (by simp [h]))
      refine ⟨fm, ?_⟩
      simp only [List.length_cons, ghChatLoop]
      rw [if_pos (Or.inr (hall r (by simp)).1), hdec]
      simp only []
      rw [hcol]
      simp only []
      rw [hrec]

theorem streamBlocks_total (fc : String) (slots : List (Nat × Slot))
    (hargs : ∀ p ∈ slots, ∃ v, slotArgs p.2 = .ok v) :
    ∃ blocks, streamBlocks fc slots = .ok blocks := by
  have : ∃ l, slots.mapM (fun p => do
      let input ← slotArgs p.2
      pure (ContentBlock.toolUse p.2.id p.2.name input)) = Except.ok l := by
    induction slots with
    | nil => exact ⟨[], rfl⟩
    | cons p rest ih =>
        obtain ⟨l, hl⟩ := ih (fun x hx => hargs x (by simp [hx]))
        obtain ⟨v, hv⟩ := hargs p (by simp)
        refine ⟨ContentBlock.toolUse p.2.id p.2.name v :: l, ?_⟩
        rw [List.mapM_cons, hv]
        simp only [bind, Except.bind] at hl ⊢
        rw [hl]
        rfl
  obtain ⟨l, hl⟩ := this
  refine ⟨(if fc ≠ "" then [ContentBlock.text fc] else []) ++ l, ?_⟩
  simp only [streamBlocks, bind, Except.bind] at hl ⊢
  rw [hl]
  rfl

theorem streamToolPass_total (executor : ToolExecutor)
    (hok : ∀ n a, ∃ v, executor n a = ToolOutcome.ok v) (slots : List (Nat × Slot))
    (hargs : ∀ p ∈ slots, ∃ v, slotArgs p.2 = .ok v) :
    ∃ ys items, streamToolPass executor slots = .ok (ys, items) := by
  induction slots with
  | nil => exact ⟨[], [], rfl⟩
  | cons p rest ih =>
      obtain ⟨ys, items, hi⟩ := ih (fun x hx => hargs x (by simp [hx]))
      obtain ⟨v, hv⟩ := hargs p (by simp)
      obtain ⟨w, hw⟩ := hok p.2.name v
      refine ⟨("__TOOL_START__" ++ p.2.name ++ "__")
          :: ("__TOOL_RESULT__" ++ String.mk (dumps (.jobj
              [("type".data, .jstr (toolTypeOf p.2.name).data),
               ("tool".data, .jstr p.2.name.data),
               ("data".data, w)])) ++ "__") :: ys,
        ⟨p.2.id, dumpsIndent 0 w⟩ :: items, ?_⟩
      simp only [streamToolPass, bind, Except.bind]
      rw [hv]
      simp only []
      rw [hw]
      simp only []
      rw [hi]

theorem ghChatStreamLoop_all_tools (executor : ToolExecutor)
    (hok : ∀ n a, ∃ v, executor n a = ToolOutcome.ok v) :
    ∀ (script : List (List StreamChunk)) (system : String) (msgs : List Message),
    (∀ chunks ∈ script,
      (chunks.foldl processChunk (StreamAccum.mk "" [] [])).tool_calls_data ≠ []
      ∧ ∀ p ∈ sortSlots (chunks.foldl processChunk (StreamAccum.mk "" [] [])).tool_calls_data,
          ∃ v, slotArgs p.2 = .ok v) →
    ∃ ys finalMsgs,
      ghChatStreamLoop executor script system msgs script.length
        = .ok (ys, finalMsgs, script.length)
      ∧ ys.getLast? = some "\nMaximum conversation turns reached." := by
  intro script
  induction script with
  | nil => intro system msgs _; exact ⟨["\nMaximum conversation turns reached."], msgs, rfl, rfl⟩
  | cons chunks rest ih =>
      intro system msgs hall
      obtain ⟨blocks, hblk⟩ := streamBlocks_total _ _ (hall chunks (by simp)).2
      obtain ⟨tys, items, hpass⟩ := streamToolPass_total executor hok _ (hall chunks (by simp)).2
      obtain ⟨ys, fm, hrec, hlast⟩ := ih system (msgs ++ [.assistant blocks, .toolResults items])
        (fun c h => hall c (by simp [h]))
      have hysne : ys ≠ [] := by
        intro hc
        rw [hc] at hlast
        cases hlast
      refine ⟨(chunks.foldl processChunk (StreamAccum.mk "" [] [])).yielded ++ tys ++ ys, fm, ?_, ?_⟩
      · simp only [List.length_cons, ghChatStreamLoop]
        rw [if_pos (hall chunks (by simp)).1, hblk]
        simp only []
        rw [hpass]
        simp only []
        rw [hrec]
      · rw [List.append_assoc]
        rw [List.getLast?_append_of_ne_nil _ (by
          intro hc
          rw [List.append_eq_nil] at hc
          exact hysne hc.2)]
        rw [List.getLast?_append_of_ne_nil _ hysne]
        exact hlast

/-- C1 counterexample: the claim as stated is false for the streaming loop.
With `max_turns = 1` and a round that requests a tool, the loop performs
exactly one round trip, but its final output is the fragment
`"\nMaximum conversation turns reached."` — the literal message prefixed by a
newline, not the literal message itself. -/
theorem C1_counterexample :
    GitHubModelsProvider.chat_stream (fun _ _ => ToolOutcome.ok .jnull)
        [[some (StreamDelta.mk "" [DeltaToolCall.mk 0 "c1" true "t1" ""])]] "sys" [] 1
      = .ok (["__TOOL_START__t1__",
              "__TOOL_RESULT__" ++ String.mk (dumps (.jobj
                [("type".data, .jstr "contacts".data),
                 ("tool".data, .jstr "t1".data),
                 ("data".data, .jnull)])) ++ "__",
              "\nMaximum conversation turns reached."],
             [.assistant [.toolUse "c1" "t1" (.jobj [])],
              .toolResults [⟨"c1", dumpsIndent 0 .jnull⟩]], 1)
    ∧ "\nMaximum conversation turns reached." ≠ "Maximum conversation turns reached." :=
  ⟨rfl, by decide⟩

/-- C1 as amended: for every loop run with `max_turns = N` in which every
adapter round trip reports tool use (stop reason `tool_use`, a non-empty
`tool_calls` list, or non-empty accumulated streamed tool calls) and no
uncaught exception intervenes (executor total, argument strings parseable),
the loop performs exactly N adapter round trips and terminates; the blocking
loops return the literal `"Maximum conversation turns reached."`, while the
streaming loop's final yielded fragment is that literal preceded by a
newline. -/
theorem C1_max_turns (executor : ToolExecutor)
    (hok : ∀ n a, ∃ v, executor n a = ToolOutcome.ok v) :
    (∀ (responses : List AnthropicResponse) (msgs : List Message) (user : String),
      (∀ resp ∈ responses, resp.stop_reason = "tool_use") →
      ∃ finalMsgs, RadChat.chat executor responses msgs user responses.length
        = .ok ("Maximum conversation turns reached.", finalMsgs, responses.length))
    ∧ (∀ (responses : List OpenAIResponse) (system : String) (msgs : List Message),
      (∀ resp ∈ responses, resp.tool_calls ≠ []
        ∧ ∀ tc ∈ resp.tool_calls, (loads tc.farguments).isSome = true) →
      ∃ finalMsgs, GitHubModelsProvider.chat executor responses system msgs responses.length
        = .ok ("Maximum conversation turns reached.", finalMsgs, responses.length))
    ∧ (∀ (script : List (List StreamChunk)) (system : String) (msgs : List Message),
      (∀ chunks ∈ script,
        (chunks.foldl processChunk (StreamAccum.mk "" [] [])).tool_calls_data ≠ []
        ∧ ∀ p ∈ sortSlots (chunks.foldl processChunk (StreamAccum.mk "" [] [])).tool_calls_data,
            ∃ v, slotArgs p.2 = .ok v) →
      ∃ ys finalMsgs,
        GitHubModelsProvider.chat_stream executor script system msgs script.length
          = .ok (ys, finalMsgs, script.length)
        ∧ ys.getLast? = some "\nMaximum conversation turns reached.") := by
  refine ⟨?_, ?_, ?_⟩
  · intro responses msgs user hall
    exact radChatLoop_all_tools executor hok responses (msgs ++ [.user user]) hall
  · intro responses system msgs hall
    exact ghChatLoop_all_tools executor hok responses system msgs hall
  · intro script system msgs hall
    exact ghChatStreamLoop_all_tools executor hok script system msgs hall

/-- C1 amended witness: three tool-using rounds against `max_turns = 3` on
the Block-protocol blocking loop give exactly three round trips and the
literal final message. -/
theorem C1_max_turns_witness :
    ∃ finalMsgs,
      RadChat.chat (fun _ _ => ToolOutcome.ok .jnull)
        [⟨"tool_use", [.toolUse "i1" "t" (.jobj [])]⟩,
         ⟨"tool_use", [.toolUse "i2" "t" (.jobj [])]⟩,
         ⟨"tool_use", [.toolUse "i3" "t" (.jobj [])]⟩] [] "q" 3
      = .ok ("Maximum conversation turns reached.", finalMsgs, 3) :=
  (C1_max_turns (fun _ _ => ToolOutcome.ok .jnull) (fun _ _ => ⟨.jnull, rfl⟩)).1
    [⟨"tool_use", [.toolUse "i1" "t" (.jobj [])]⟩,
     ⟨"tool_use", [.toolUse "i2" "t" (.jobj [])]⟩,
     ⟨"tool_use", [.toolUse "i3" "t" (.jobj [])]⟩] [] "q"
    (by intro resp h; fin_cases h <;> rfl)

/-! ### C4 support: tool-call / tool-result bookkeeping over a transcript -/

/-- Ids of the `tool_use` blocks of an assistant turn, in emission order. -/
def blockCallIds (blocks : List ContentBlock) : List String :=
  blocks.filterMap (fun b => match b with
    | .toolUse id _ _ => some id
    | _ => none)

/-- Tool-call ids contributed by one message. -/
def msgCallIds : Message → List String
  | .assistant blocks => blockCallIds blocks
  | _ => []

/-- Tool-result ids contributed by one message. -/
def msgResultIds : Message → List String
  | .toolResults items => items.map (fun it => it.tool_use_id)
  | _ => []

/-- All tool-call ids of a transcript, in order. -/
def callIds (msgs : List Message) : List String := msgs.flatMap msgCallIds

/-- All tool-result ids of a transcript, in order. -/
def resultIds (msgs : List Message) : List String := msgs.flatMap msgResultIds

/-- Every `tool_result` in the transcript cites a call id emitted by an
assistant message at or before its own position (`seen` carries the ids
emitted so far). -/
def resultsMatched (seen : List String) : List Message → Bool
  | [] => true
  | m :: rest =>
      (match m with
       | .toolResults items => items.all (fun it => seen.contains it.tool_use_id)
       | _ => true)
      && resultsMatched (seen ++ msgCallIds m) rest

/-- The C4 transcript invariant: no more results than calls, and every result
id matches a call id from the same or an earlier turn. -/
def histInv (msgs : List Message) : Prop :=
  (resultIds msgs).length ≤ (callIds msgs).length ∧ resultsMatched [] msgs = true

theorem callIds_append (a b : List Message) : callIds (a ++ b) = callIds a ++ callIds b := by
  simp [callIds]

theorem resultIds_append (a b : List Message) :
    resultIds (a ++ b) = resultIds a ++ resultIds b := by
  simp [resultIds]

theorem resultsMatched_append (a : List Message) :
    ∀ (seen : List String) (b : List Message),
    resultsMatched seen (a ++ b)
      = (resultsMatched seen a && resultsMatched (seen ++ callIds a) b) := by
  induction a with
  | nil => intro seen b; simp [resultsMatched, callIds]
  | cons m rest ih =>
      intro seen b
      simp only [List.cons_append, resultsMatched]
      rw [show rest.append b = rest ++ b from rfl]
      rw [ih (seen ++ msgCallIds m) b]
      simp [callIds, List.append_assoc, Bool.and_assoc]

theorem contains_of_mem (l : List String) (x : String) (h : x ∈ l) : l.contains x = true := by
  simp [List.contains, List.elem_eq_mem, h]

theorem segment_matched (seen : List String) (blocks : List ContentBlock)
    (items : List ToolResultItem)
    (hids : items.map (fun it => it.tool_use_id) = blockCallIds blocks) :
    resultsMatched seen [.assistant blocks, .toolResults items] = true := by
  simp only [resultsMatched, msgCallIds, Bool.and_true, Bool.true_and]
  rw [List.all_eq_true]
  intro it hit
  apply contains_of_mem
  have : it.tool_use_id ∈ items.map (fun it => it.tool_use_id) := List.mem_map_of_mem _ hit
  rw [hids] at this
  simp [this]

theorem histInv_append_toolSegment (msgs : List Message) (blocks : List ContentBlock)
    (items : List ToolResultItem)
    (hids : items.map (fun it => it.tool_use_id) = blockCallIds blocks)
    (hinv : histInv msgs) :
    histInv (msgs ++ [.assistant blocks, .toolResults items]) := by
  obtain ⟨hlen, hmatch⟩ := hinv
  constructor
  · rw [resultIds_append, callIds_append]
    simp only [List.length_append]
    have h1 : (resultIds [Message.assistant blocks, Message.toolResults items]).length
        = items.length := by
      simp [resultIds, msgResultIds]
    have h2 : (callIds [Message.assistant blocks, Message.toolResults items]).length
        = (blockCallIds blocks).length := by
      simp [callIds, msgCallIds]
    have h3 : items.length = (blockCallIds blocks).length := by
      rw [← hids, List.length_map]
    omega
  · rw [resultsMatched_append, hmatch, Bool.true_and]
    exact segment_matched _ blocks items hids

theorem histInv_append_other (msgs : List Message) (m : Message)
    (hm : msgResultIds m = []) (hinv : histInv msgs) : histInv (msgs ++ [m]) := by
  obtain ⟨hlen, hmatch⟩ := hinv
  constructor
  · rw [resultIds_append, callIds_append]
    simp only [List.length_append]
    have h1 : (resultIds [m]).length = 0 := by
      simp [resultIds, hm]
    omega
  · rw [resultsMatched_append, hmatch, Bool.true_and]
    cases m with
    | toolResults items =>
        cases items with
        | nil => simp [resultsMatched]
        | cons it its => simp [msgResultIds] at hm
    | user body => simp [resultsMatched]
    | assistant blocks => simp [resultsMatched]
    | assistantStr body => simp [resultsMatched]

theorem collectToolResults_ids (executor : ToolExecutor) :
    ∀ (blocks : List ContentBlock) (items : List ToolResultItem),
    collectToolResults executor blocks = .ok items →
    items.map (fun it => it.tool_use_id) = blockCallIds blocks := by
  intro blocks
  induction blocks with
  | nil =>
      intro items h
      simp only [collectToolResults, Except.ok.injEq] at h
      subst h
      rfl
  | cons b rest ih =>
      intro items h
      cases b with
      | text s =>
          simp only [collectToolResults] at h
          rw [show blockCallIds (ContentBlock.text s :: rest) = blockCallIds rest from rfl]
          exact ih items h
      | toolUse id name input =>
          simp only [collectToolResults] at h
          match hx : executor name input with
          | .exn m => rw [hx] at h; cases h
          | .ok r =>
              rw [hx] at h
              match hc : collectToolResults executor rest with
              | .error e => rw [hc] at h; cases h
              | .ok items2 =>
                  rw [hc] at h
                  simp only [Except.ok.injEq] at h
                  subst h
                  simp only [List.map_cons, blockCallIds, List.filterMap_cons]
                  rw [ih items2 hc]
                  rfl

theorem mapM_decode_ids :
    ∀ (tcs : List WireToolCall) (l : List ContentBlock),
    tcs.mapM (fun tc => do
        let input ← loadsE tc.farguments
        pure (ContentBlock.toolUse tc.id tc.fname input)) = Except.ok l →
    blockCallIds l = tcs.map (fun tc => tc.id) := by
  intro tcs
  induction tcs with
  | nil =>
      intro l h
      simp only [List.mapM_nil, pure, Except.pure, Except.ok.injEq] at h
      subst h
      rfl
  | cons tc rest ih =>
      intro l h
      rw [List.mapM_cons] at h
      match hl : loadsE tc.farguments with
      | .error e => rw [hl] at h; simp [bind, Except.bind] at h
      | .ok v =>
          rw [hl] at h
          match hrest : rest.mapM (fun tc => do
              let input ← loadsE tc.farguments
              pure (ContentBlock.toolUse tc.id tc.fname input)) with
          | .error e =>
              rw [hrest] at h
              simp [bind, Except.bind, pure, Except.pure] at h
          | .ok l2 =>
              rw [hrest] at h
              simp only [bind, Except.bind, pure, Except.pure, Except.ok.injEq] at h
              subst h
              rw [show blockCallIds (ContentBlock.toolUse tc.id tc.fname v :: l2)
                  = tc.id :: blockCallIds l2 from rfl]
              rw [ih l2 hrest]
              rfl

theorem decodeBlocks_ids (r : OpenAIResponse) (blocks : List ContentBlock)
    (h : decodeBlocks r = .ok blocks) :
    blockCallIds blocks = r.tool_calls.map (fun tc => tc.id) := by
  simp only [decodeBlocks, bind, Except.bind] at h
  revert h
  match hm : r.tool_calls.mapM (fun tc => do
      let input ← loadsE tc.farguments
      pure (ContentBlock.toolUse tc.id tc.fname input)) with
  | .error e => intro h; cases h
  | .ok l =>
      intro h
      simp only [pure, Except.pure, Except.ok.injEq] at h
      subst h
      have hl := mapM_decode_ids r.tool_calls l hm
      match r.content with
      | none => simpa using hl
      | some s =>
          by_cases hs : s = ""
          · simp only [hs, if_pos rfl]
            simpa using hl
          · simp only [if_neg hs]
            rw [show blockCallIds ([ContentBlock.text s] ++ l)
                = blockCallIds l from rfl]
            exact hl

theorem ghCollectResults_ids (executor : ToolExecutor) :
    ∀ (tcs : List WireToolCall) (items : List ToolResultItem),
    ghCollectResults executor tcs = .ok items →
    items.map (fun it => it.tool_use_id) = tcs.map (fun tc => tc.id) := by
  intro tcs
  induction tcs with
  | nil =>
      intro items h
      simp only [ghCollectResults, Except.ok.injEq] at h
      subst h
      rfl
  | cons tc rest ih =>
      intro items h
      simp only [ghCollectResults, bind, Except.bind] at h
      match hl : loadsE tc.farguments with
      | .error e => rw [hl] at h; simp at h
      | .ok v =>
          rw [hl] at h
          simp only [] at h
          match hx : executor tc.fname v with
          | .exn m => rw [hx] at h; simp at h
          | .ok w =>
              rw [hx] at h
              simp only [] at h
              match hc : ghCollectResults executor rest with
              | .error e => rw [hc] at h; simp at h
              | .ok items2 =>
                  rw [hc] at h
                  simp only [Except.ok.injEq] at h
                  subst h
                  simp only [List.map_cons]
                  rw [ih items2 hc]

theorem mapM_stream_ids :
    ∀ (slots : List (Nat × Slot)) (l : List ContentBlock),
    slots.mapM (fun p => do
        let input ← slotArgs p.2
        pure (ContentBlock.toolUse p.2.id p.2.name input)) = Except.ok l →
    blockCallIds l = slots.map (fun p => p.2.id) := by
  intro slots
  induction slots with
  | nil =>
      intro l h
      simp only [List.mapM_nil, pure, Except.pure, Except.ok.injEq] at h
      subst h
      rfl
  | cons p rest ih =>
      intro l h
      rw [List.mapM_cons] at h
      match hl : slotArgs p.2 with
      | .error e => rw [hl] at h; simp [bind, Except.bind] at h
      | .ok v =>
          rw [hl] at h
          match hrest : rest.mapM (fun p => do
              let input ← slotArgs p.2
              pure (ContentBlock.toolUse p.2.id p.2.name input)) with
          | .error e =>
              rw [hrest] at h
              simp [bind, Except.bind, pure, Except.pure] at h
          | .ok l2 =>
              rw [hrest] at h
              simp only [bind, Except.bind, pure, Except.pure, Except.ok.injEq] at h
              subst h
              rw [show blockCallIds (ContentBlock.toolUse p.2.id p.2.name v :: l2)
                  = p.2.id :: blockCallIds l2 from rfl]
              rw [ih l2 hrest]
              rfl

theorem streamBlocks_ids (fc : String) (slots : List (Nat × Slot))
    (blocks : List ContentBlock) (h : streamBlocks fc slots = .ok blocks) :
    blockCallIds blocks = slots.map (fun p => p.2.id) := by
  simp only [streamBlocks, bind, Except.bind] at h
  revert h
  match hm : slots.mapM (fun p => do
      let input ← slotArgs p.2
      pure (ContentBlock.toolUse p.2.id p.2.name input)) with
  | .error e => intro h; cases h
  | .ok l =>
      intro h
      simp only [pure, Except.pure, Except.ok.injEq] at h
      subst h
      have hl := mapM_stream_ids slots l hm
      by_cases hfc : fc = ""
      · simp only [hfc]
        simpa using hl
      · rw [if_pos hfc]
        rw [show blockCallIds ([ContentBlock.text fc] ++ l) = blockCallIds l from rfl]
        exact hl

theorem streamToolPass_ids (executor : ToolExecutor) :
    ∀ (slots : List (Nat × Slot)) (ys : List String) (items : List ToolResultItem),
    streamToolPass executor slots = .ok (ys, items) →
    items.map (fun it => it.tool_use_id) = slots.map (fun p => p.2.id) := by
  intro slots
  induction slots with
  | nil =>
      intro ys items h
      simp only [streamToolPass, Except.ok.injEq, Prod.mk.injEq] at h
      rw [← h.2]
      rfl
  | cons p rest ih =>
      intro ys items h
      simp only [streamToolPass, bind, Except.bind] at h
      match hl : slotArgs p.2 with
      | .error e => rw [hl] at h; simp at h
      | .ok v =>
          rw [hl] at h
          simp only [] at h
          match hx : executor p.2.name v with
          | .exn m => rw [hx] at h; simp at h
          | .ok w =>
              rw [hx] at h
              simp only [] at h
              match hc : streamToolPass executor rest with
              | .error e => rw [hc] at h; simp at h
              | .ok (ys2, items2) =>
                  rw [hc] at h
                  simp only [Except.ok.injEq, Prod.mk.injEq] at h
                  rw [← h.2]
                  simp only [List.map_cons]
                  rw [ih ys2 items2 hc]

theorem radChatLoop_inv (executor : ToolExecutor) :
    ∀ (fuel : Nat) (responses : List AnthropicResponse) (msgs : List Message)
      (answer : String) (finalMsgs : List Message) (n : Nat),
    histInv msgs →
    radChatLoop executor responses msgs fuel = .ok (answer, finalMsgs, n) →
    histInv finalMsgs := by
  intro fuel
  induction fuel with
  | zero =>
      intro responses msgs a fm n hinv h
      simp only [radChatLoop, Except.ok.injEq, Prod.mk.injEq] at h
      obtain ⟨-, h2, -⟩ := h
      exact h2 ▸ hinv
  | succ f ih =>
      intro responses msgs a fm n hinv h
      match responses with
      | [] => simp [radChatLoop] at h
      | r :: rest =>
          simp only [radChatLoop] at h
          by_cases hsr : r.stop_reason = "tool_use"
          · rw [if_pos hsr] at h
            match hcol : collectToolResults executor r.content with
            | .error e => rw [hcol] at h; simp at h
            | .ok items =>
                rw [hcol] at h
                simp only [] at h
                match hrec : radChatLoop executor rest
                    (msgs ++ [.assistant r.content, .toolResults items]) f with
                | .error e => rw [hrec] at h; simp at h
                | .ok (a2, fm2, n2) =>
                    rw [hrec] at h
                    simp only [Except.ok.injEq, Prod.mk.injEq] at h
                    obtain ⟨-, h2, -⟩ := h
                    subst h2
                    exact ih rest _ a2 fm2 n2
                      (histInv_append_toolSegment msgs r.content items
                        (collectToolResults_ids executor r.content items hcol) hinv)
                      hrec
          · rw [if_neg hsr] at h
            simp only [Except.ok.injEq, Prod.mk.injEq] at h
            obtain ⟨-, h2, -⟩ := h
            subst h2
            exact histInv_append_other msgs (.assistant r.content) rfl hinv

theorem ghChatLoop_inv (executor : ToolExecutor) :
    ∀ (fuel : Nat) (responses : List OpenAIResponse) (system : String) (msgs : List Message)
      (answer : String) (finalMsgs : List Message) (n : Nat),
    histInv msgs →
    ghChatLoop executor responses system msgs fuel = .ok (answer, finalMsgs, n) →
    histInv finalMsgs := by
  intro fuel
  induction fuel with
  | zero =>
      intro responses system msgs a fm n hinv h
      simp only [ghChatLoop, Except.ok.injEq, Prod.mk.injEq] at h
      obtain ⟨-, h2, -⟩ := h
      exact h2 ▸ hinv
  | succ f ih =>
      intro responses system msgs a fm n hinv h
      match responses with
      | [] => simp [ghChatLoop] at h
      | r :: rest =>
          simp only [ghChatLoop] at h
          by_cases hcond : r.finish_reason = "tool_calls" ∨ r.tool_calls ≠ []
          · rw [if_pos hcond] at h
            match hdec : decodeBlocks r with
            | .error e => rw [hdec] at h; simp at h
            | .ok blocks =>
                rw [hdec] at h
                simp only [] at h
                match hcol : ghCollectResults executor r.tool_calls with
                | .error e => rw [hcol] at h; simp at h
                | .ok items =>
                    rw [hcol] at h
                    simp only [] at h
                    match hrec : ghChatLoop executor rest system
                        (msgs ++ [.assistant blocks, .toolResults items]) f with
                    | .error e => rw [hrec] at h; simp at h
                    | .ok (a2, fm2, n2) =>
                        rw [hrec] at h
                        simp only [Except.ok.injEq, Prod.mk.injEq] at h
                        obtain ⟨-, h2, -⟩ := h
                        subst h2
                        have hids : items.map (fun it => it.tool_use_id)
                            = blockCallIds blocks := by
                          rw [ghCollectResults_ids executor r.tool_calls items hcol,
                            decodeBlocks_ids r blocks hdec]
                        exact ih rest system _ a2 fm2 n2
                          (histInv_append_toolSegment msgs blocks items hids hinv) hrec
          · rw [if_neg hcond] at h
            simp only [Except.ok.injEq, Prod.mk.injEq] at h
            obtain ⟨-, h2, -⟩ := h
            exact h2 ▸ hinv

theorem ghChatStreamLoop_inv (executor : ToolExecutor) :
    ∀ (fuel : Nat) (script : List (List StreamChunk)) (system : String) (msgs : List Message)
      (ys : List String) (finalMsgs : List Message) (n : Nat),
    histInv msgs →
    ghChatStreamLoop executor script system msgs fuel = .ok (ys, finalMsgs, n) →
    histInv finalMsgs := by
  intro fuel
  induction fuel with
  | zero =>
      intro script system msgs ys fm n hinv h
      simp only [ghChatStreamLoop, Except.ok.injEq, Prod.mk.injEq] at h
      obtain ⟨-, h2, -⟩ := h
      exact h2 ▸ hinv
  | succ f ih =>
      intro script system msgs ys fm n hinv h
      match script with
      | [] => simp [ghChatStreamLoop] at h
      | chunks :: rest =>
          simp only [ghChatStreamLoop] at h
          by_cases hcond :
              (chunks.foldl processChunk (StreamAccum.mk "" [] [])).tool_calls_data ≠ []
          · rw [if_pos hcond] at h
            match hblk : streamBlocks
                (chunks.foldl processChunk (StreamAccum.mk "" [] [])).full_content
                (sortSlots (chunks.foldl processChunk
                  (StreamAccum.mk "" [] [])).tool_calls_data) with
            | .error e => rw [hblk] at h; simp at h
            | .ok blocks =>
                rw [hblk] at h
                simp only [] at h
                match hpass : streamToolPass executor
                    (sortSlots (chunks.foldl processChunk
                      (StreamAccum.mk "" [] [])).tool_calls_data) with
                | .error e => rw [hpass] at h; simp at h
                | .ok (tys, items) =>
                    rw [hpass] at h
                    simp only [] at h
                    match hrec : ghChatStreamLoop executor rest system
                        (msgs ++ [.assistant blocks, .toolResults items]) f with
                    | .error e => rw [hrec] at h; simp at h
                    | .ok (ys2, fm2, n2) =>
                        rw [hrec] at h
                        simp only [Except.ok.injEq, Prod.mk.injEq] at h
                        obtain ⟨-, h2, -⟩ := h
                        subst h2
                        have hids : items.map (fun it => it.tool_use_id)
                            = blockCallIds blocks := by
                          rw [streamToolPass_ids executor _ tys items hpass,
                            streamBlocks_ids _ _ blocks hblk]
                        exact ih rest system _ ys2 fm2 n2
                          (histInv_append_toolSegment msgs blocks items hids hinv) hrec
          · rw [if_neg hcond] at h
            simp only [Except.ok.injEq, Prod.mk.injEq] at h
            obtain ⟨-, h2, -⟩ := h
            exact h2 ▸ hinv

/-- C4: For every conversation history produced by a run of any of the three
agentic loops (`RadChat.chat`, `GitHubModelsProvider.chat`,
`GitHubModelsProvider.chat_stream`), if the starting history satisfies the
transcript invariant then so does the final history: the number of
tool-result items never exceeds the number of tool-call items, and every
tool-result's `tool_use_id` equals the id of a tool-call block appended in
the same or an earlier turn. -/
theorem C4_history_invariant :
    (∀ (executor : ToolExecutor) (responses : List AnthropicResponse)
        (msgs : List Message) (userMessage : String) (maxTurns : Nat)
        (answer : String) (finalMsgs : List Message) (n : Nat),
      histInv msgs →
      RadChat.chat executor responses msgs userMessage maxTurns
        = .ok (answer, finalMsgs, n) →
      histInv finalMsgs) ∧
    (∀ (executor : ToolExecutor) (responses : List OpenAIResponse)
        (system : String) (messages : List Message) (maxTurns : Nat)
        (answer : String) (finalMsgs : List Message) (n : Nat),
      histInv messages →
      GitHubModelsProvider.chat executor responses system messages maxTurns
        = .ok (answer, finalMsgs, n) →
      histInv finalMsgs) ∧
    (∀ (executor : ToolExecutor) (script : List (List StreamChunk))
        (system : String) (messages : List Message) (maxTurns : Nat)
        (ys : List String) (finalMsgs : List Message) (n : Nat),
      histInv messages →
      GitHubModelsProvider.chat_stream executor script system messages maxTurns
        = .ok (ys, finalMsgs, n) →
      histInv finalMsgs) := by
  refine ⟨?_, ?_, ?_⟩
  · intro executor responses msgs u maxTurns a fm n hinv h
    exact radChatLoop_inv executor maxTurns responses (msgs ++ [Message.user u]) a fm n
      (histInv_append_other msgs (Message.user u) rfl hinv) h
  · intro executor responses system msgs maxTurns a fm n hinv h
    exact ghChatLoop_inv executor maxTurns responses system msgs a fm n hinv h
  · intro executor script system msgs maxTurns ys fm n hinv h
    exact ghChatStreamLoop_inv executor maxTurns script system msgs ys fm n hinv h

theorem C4_history_invariant_witness :
    histInv [Message.user "q",
      Message.assistant [ContentBlock.toolUse "id1" "t" (JVal.jobj [])],
      Message.toolResults [⟨"id1", ['\x7b', '\x7d']⟩],
      Message.assistant [ContentBlock.text "done"]] :=
  C4_history_invariant.1 (fun _ _ => ToolOutcome.ok (JVal.jobj []))
    [⟨"tool_use", [ContentBlock.toolUse "id1" "t" (JVal.jobj [])]⟩,
     ⟨"end_turn", [ContentBlock.text "done"]⟩]
    [] "q" 2 "done"
    [Message.user "q",
      Message.assistant [ContentBlock.toolUse "id1" "t" (JVal.jobj [])],
      Message.toolResults [⟨"id1", ['\x7b', '\x7d']⟩],
      Message.assistant [ContentBlock.text "done"]]
    2 ⟨Nat.le_refl 0, rfl⟩ rfl
